import Mathlib

/-!
Verification of the agents-lint transcript checker (michaellady/AGENTS).

This file shallowly embeds the parts of the Go source that the checked
properties concern:

* the NDJSON transcript parser (`internal/transcript/parser.go`), over an
  explicit JSON value type (`Json`) with Go `encoding/json` unmarshal
  semantics for the concrete event shapes,
* the tool-call correlator (`ExtractToolCalls`),
* the policy checkers `CommitAfterEdit`, `ExponentialBackoff`,
  `ClarifyingQuestions` and `ContextReport`
  (`internal/checker/*.go`), including a faithful model of the Go slice
  aliasing in the commit-after-edit aging loop,
* the checker registry (`internal/checker/registry.go`), with the Go
  `panic` on duplicate registration modelled as `Except.error`.

Notes on the embedding:

* Machine integers are modelled as `Int`/`Nat` (no arithmetic in the
  sources comes near overflow), JSON numbers as `Int` (no property here
  touches non-integral numbers).
* A raw input line is `Option Json`: `none` stands for a line that is not
  well-formed JSON, `some j` for a line whose JSON value is `j`.
* `json.RawMessage` fields are `Option Json` (`none` = absent field).
  The `UserContentBlock.Content` field is a `json.RawMessage` in the
  version of the source the parser compiles against
  (`extractContentString` receives it as raw JSON).
* Go regular expressions used by the checkers are embedded as values of a
  small regex language `RE` with a Brzozowski-derivative matcher;
  `MatchString` (unanchored search) is `RE.reFind`.
-/

/-! ## JSON values and Go `encoding/json` unmarshal semantics -/

inductive Json where
  | null : Json
  | bool (b : Bool) : Json
  | num (n : Int) : Json
  | str (s : String) : Json
  | arr (elems : List Json) : Json
  | obj (fields : List (String × Json)) : Json
  deriving Repr, Inhabited

mutual

/-- Compact rendering of a JSON value, used for the `string(raw)` fallback
in `extractContentString`. -/
def Json.render : Json → String
  | .null => "null"
  | .bool b => if b then "true" else "false"
  | .num n => toString n
  | .str s => "\"" ++ s ++ "\""
  | .arr es => "[" ++ String.intercalate "," (Json.renderList es) ++ "]"
  | .obj fs => "\x7b" ++ String.intercalate "," (Json.renderObj fs) ++ "\x7d"

def Json.renderList : List Json → List String
  | [] => []
  | j :: rest => Json.render j :: Json.renderList rest

def Json.renderObj : List (String × Json) → List String
  | [] => []
  | (k, v) :: rest => ("\"" ++ k ++ "\":" ++ Json.render v) :: Json.renderObj rest

end

/-- Unmarshal a JSON value into a Go `string` field: strings succeed,
anything else is a type error.  (JSON `null` is handled one level up: Go
skips `null` field values without assigning.) -/
def decStr : Json → Option String
  | .str s => some s
  | _ => none

/-- Unmarshal into a Go `bool` field. -/
def decBool : Json → Option Bool
  | .bool b => some b
  | _ => none

/-- Unmarshal into a Go integer field. -/
def decInt : Json → Option Int
  | .num n => some n
  | _ => none

/-- Unmarshal into a Go `*string` field (pointer: a string allocates). -/
def decStrPtr : Json → Option (Option String)
  | .str s => some (some s)
  | _ => none

/-- Unmarshal into a Go `json.RawMessage` field: always succeeds and keeps
the raw value. -/
def decRaw : Json → Option (Option Json)
  | j => some (some j)

/-- Go assigns JSON object keys to a struct field in input order; every
occurrence must decode, `null` occurrences are skipped, the last
non-`null` occurrence wins. -/
def decFieldAux {α : Type} (dec : Json → Option α) : List Json → α → Option α
  | [], a => some a
  | .null :: rest, a => decFieldAux dec rest a
  | v :: rest, _ =>
    match dec v with
    | none => none
    | some x => decFieldAux dec rest x

/-- Decode one struct field named `key` from the field list of a JSON
object, with the Go zero value `dflt` when the key is absent. -/
def decField {α : Type} (fields : List (String × Json)) (key : String)
    (dec : Json → Option α) (dflt : α) : Option α :=
  decFieldAux dec ((fields.filter (fun p => p.1 == key)).map (fun p => p.2)) dflt

/-- Unmarshal into a struct: JSON `null` leaves the zero value, an object
decodes its fields, anything else is a type error. -/
def decObjWith {α : Type} (j : Json) (f : List (String × Json) → Option α)
    (dflt : α) : Option α :=
  match j with
  | .null => some dflt
  | .obj l => f l
  | _ => none

/-- Unmarshal into a Go slice: `null` gives the empty (nil) slice, an
array decodes every element (a `null` element leaves the element's zero
value `zero`), anything else is a type error. -/
def decList {α : Type} (elemDec : Json → Option α) (zero : α) : Json → Option (List α)
  | .null => some []
  | .arr es => es.mapM (fun e => match e with
      | .null => some zero
      | v => elemDec v)
  | _ => none

/-! ## Transcript event types (`internal/transcript/types.go`) -/

/-- The base fields shared by every event (`Event` in Go, embedded and
promoted to the top level of each concrete event). -/
structure EventBase where
  type : String := ""
  subtype : String := ""
  sessionID : String := ""
  uuid : String := ""
  deriving Repr, DecidableEq, Inhabited

structure Usage where
  inputTokens : Int := 0
  outputTokens : Int := 0
  cacheCreationInputTokens : Int := 0
  cacheReadInputTokens : Int := 0
  deriving Repr, DecidableEq, Inhabited

structure SystemEvent where
  base : EventBase := {}
  cwd : String := ""
  tools : List String := []
  mcpServers : List String := []
  model : String := ""
  permissionMode : String := ""
  slashCommands : List String := []
  claudeCodeVersion : String := ""
  deriving Repr, DecidableEq, Inhabited

/-- A content block of an assistant message: free text or a tool
invocation. -/
structure ContentBlock where
  type : String := ""
  text : String := ""
  id : String := ""
  name : String := ""
  input : Option Json := none
  deriving Repr, Inhabited

structure AssistantMessage where
  id : String := ""
  model : String := ""
  role : String := ""
  content : List ContentBlock := []
  stopReason : Option String := none
  usage : Usage := {}
  deriving Repr, Inhabited

structure AssistantEvent where
  base : EventBase := {}
  message : AssistantMessage := {}
  parentToolUseID : Option String := none
  deriving Repr, Inhabited

/-- A content block of a user message: free text (`text`) or a tool
result.  The result payload `content` is a `json.RawMessage` (string or
block array): `extractContentString` receives it raw, and the
`ClarifyingQuestions` checker and the test fixtures read a separate
`Text` field. -/
structure UserContentBlock where
  type : String := ""
  text : String := ""
  toolUseID : String := ""
  content : Option Json := none
  isError : Bool := false
  deriving Repr, Inhabited

structure UserMessage where
  role : String := ""
  content : List UserContentBlock := []
  deriving Repr, Inhabited

structure UserEvent where
  base : EventBase := {}
  message : UserMessage := {}
  parentToolUseID : Option String := none
  toolUseResult : String := ""
  deriving Repr, Inhabited

structure PermissionDenial where
  toolName : String := ""
  toolUseID : String := ""
  toolInput : Option Json := none
  deriving Repr, Inhabited

structure ResultEvent where
  base : EventBase := {}
  isError : Bool := false
  durationMS : Int := 0
  durationAPIMS : Int := 0
  numTurns : Int := 0
  result : String := ""
  totalCostUSD : Int := 0
  usage : Usage := {}
  modelUsage : List (String × Usage) := []
  permissionDenials : List PermissionDenial := []
  deriving Repr, Inhabited

/-- One parsed event: the discriminated union stored in
`Transcript.Events` (`[]any` in Go); unknown types are kept raw. -/
inductive EventU where
  | sys (e : SystemEvent)
  | asst (e : AssistantEvent)
  | user (e : UserEvent)
  | res (e : ResultEvent)
  | raw (j : Json)
  deriving Repr, Inhabited

/-- A correlated tool invocation (`transcript.ToolCall`). -/
structure ToolCall where
  id : String := ""
  name : String := ""
  input : Option Json := none
  result : String := ""
  isError : Bool := false
  eventUUID : String := ""
  deriving Repr, Inhabited

/-- The session aggregate (`transcript.Transcript`). -/
structure Transcript where
  sessionID : String := ""
  model : String := ""
  cwd : String := ""
  tools : List String := []
  events : List EventU := []
  toolCalls : List ToolCall := []
  totalCostUSD : Int := 0
  numTurns : Int := 0
  isError : Bool := false
  result : String := ""
  deriving Repr, Inhabited

/-! ## Event decoders (Go `json.Unmarshal` into the concrete shapes) -/

def decodeEventBase (j : Json) : Option EventBase :=
  decObjWith j (fun l => do
    let t ← decField l "type" decStr ""
    let st ← decField l "subtype" decStr ""
    let sid ← decField l "session_id" decStr ""
    let u ← decField l "uuid" decStr ""
    pure { type := t, subtype := st, sessionID := sid, uuid := u }) {}

def decodeUsage (j : Json) : Option Usage :=
  decObjWith j (fun l => do
    let a ← decField l "input_tokens" decInt 0
    let b ← decField l "output_tokens" decInt 0
    let c ← decField l "cache_creation_input_tokens" decInt 0
    let d ← decField l "cache_read_input_tokens" decInt 0
    pure { inputTokens := a, outputTokens := b,
           cacheCreationInputTokens := c, cacheReadInputTokens := d }) {}

def decodeSystemEvent (j : Json) : Option SystemEvent :=
  decObjWith j (fun l => do
    let base ← decodeEventBase j
    let cwd ← decField l "cwd" decStr ""
    let tools ← decField l "tools" (decList decStr "") []
    let mcp ← decField l "mcp_servers" (decList decStr "") []
    let model ← decField l "model" decStr ""
    let pm ← decField l "permissionMode" decStr ""
    let sc ← decField l "slash_commands" (decList decStr "") []
    let ccv ← decField l "claude_code_version" decStr ""
    pure { base := base, cwd := cwd, tools := tools, mcpServers := mcp,
           model := model, permissionMode := pm, slashCommands := sc,
           claudeCodeVersion := ccv }) {}

def decodeContentBlock (j : Json) : Option ContentBlock :=
  decObjWith j (fun l => do
    let t ← decField l "type" decStr ""
    let tx ← decField l "text" decStr ""
    let i ← decField l "id" decStr ""
    let n ← decField l "name" decStr ""
    let inp ← decField l "input" decRaw none
    pure { type := t, text := tx, id := i, name := n, input := inp }) {}

def decodeAssistantMessage (j : Json) : Option AssistantMessage :=
  decObjWith j (fun l => do
    let i ← decField l "id" decStr ""
    let m ← decField l "model" decStr ""
    let r ← decField l "role" decStr ""
    let c ← decField l "content" (decList decodeContentBlock {}) []
    let sr ← decField l "stop_reason" decStrPtr none
    let u ← decField l "usage" decodeUsage {}
    pure { id := i, model := m, role := r, content := c,
           stopReason := sr, usage := u }) {}

def decodeAssistantEvent (j : Json) : Option AssistantEvent :=
  decObjWith j (fun l => do
    let base ← decodeEventBase j
    let msg ← decField l "message" decodeAssistantMessage {}
    let p ← decField l "parent_tool_use_id" decStrPtr none
    pure { base := base, message := msg, parentToolUseID := p }) {}

def decodeUserContentBlock (j : Json) : Option UserContentBlock :=
  decObjWith j (fun l => do
    let t ← decField l "type" decStr ""
    let tx ← decField l "text" decStr ""
    let tu ← decField l "tool_use_id" decStr ""
    let c ← decField l "content" decRaw none
    let e ← decField l "is_error" decBool false
    pure { type := t, text := tx, toolUseID := tu, content := c, isError := e }) {}

def decodeUserMessage (j : Json) : Option UserMessage :=
  decObjWith j (fun l => do
    let r ← decField l "role" decStr ""
    let c ← decField l "content" (decList decodeUserContentBlock {}) []
    pure { role := r, content := c }) {}

def decodeUserEvent (j : Json) : Option UserEvent :=
  decObjWith j (fun l => do
    let base ← decodeEventBase j
    let msg ← decField l "message" decodeUserMessage {}
    let p ← decField l "parent_tool_use_id" decStrPtr none
    let tr ← decField l "tool_use_result" decStr ""
    pure { base := base, message := msg, parentToolUseID := p,
           toolUseResult := tr }) {}

def decodePermissionDenial (j : Json) : Option PermissionDenial :=
  decObjWith j (fun l => do
    let n ← decField l "tool_name" decStr ""
    let i ← decField l "tool_use_id" decStr ""
    let inp ← decField l "tool_input" decRaw none
    pure { toolName := n, toolUseID := i, toolInput := inp }) {}

/-- Unmarshal into `map[string]Usage`: an object whose values all decode
as `Usage` (`null` values are skipped by Go's map decoding). -/
def decodeModelUsage (j : Json) : Option (List (String × Usage))
  := match j with
  | .null => some []
  | .obj l => l.mapM (fun p => match p.2 with
      | .null => some (p.1, ({} : Usage))
      | v => (decodeUsage v).map (fun u => (p.1, u)))
  | _ => none

def decodeResultEvent (j : Json) : Option ResultEvent :=
  decObjWith j (fun l => do
    let base ← decodeEventBase j
    let ie ← decField l "is_error" decBool false
    let dm ← decField l "duration_ms" decInt 0
    let da ← decField l "duration_api_ms" decInt 0
    let nt ← decField l "num_turns" decInt 0
    let r ← decField l "result" decStr ""
    let tc ← decField l "total_cost_usd" decInt 0
    let u ← decField l "usage" decodeUsage {}
    let mu ← decField l "modelUsage" decodeModelUsage []
    let pd ← decField l "permission_denials" (decList decodePermissionDenial {}) []
    pure { base := base, isError := ie, durationMS := dm, durationAPIMS := da,
           numTurns := nt, result := r, totalCostUSD := tc, usage := u,
           modelUsage := mu, permissionDenials := pd }) {}

/-! ## extractContentString (`parser.go`) -/

/-- The block shape `extractContentString` tries for the array form:
`[]struct { Type string; Text string }`. -/
structure RBlock where
  type : String := ""
  text : String := ""
  deriving Repr, DecidableEq, Inhabited

def decodeRBlock (j : Json) : Option RBlock :=
  decObjWith j (fun l => do
    let t ← decField l "type" decStr ""
    let tx ← decField l "text" decStr ""
    pure { type := t, text := tx }) {}

/-- The Go accumulation loop: append the text of every `text` block with a
non-empty text, separating consecutive contributions with a newline. -/
def joinTextFold (bs : List RBlock) : String :=
  bs.foldl (fun acc b =>
    if b.type == "text" && b.text != "" then
      (if acc != "" then acc ++ "\n" else acc) ++ b.text
    else acc) ""

/-- `extractContentString` from `parser.go`: a raw tool-result payload is
tried as a bare string, then as an array of typed blocks (text blocks
newline-joined), and otherwise kept in its raw textual form.
An absent field (`len(raw) == 0`) gives the empty string; JSON `null`
decodes into a Go string variable as a no-op, also giving `""`. -/
def extractContentString : Option Json → String
  | none => ""
  | some j =>
    match j with
    | .null => ""
    | .str s => s
    | _ =>
      match decList decodeRBlock {} j with
      | some bs => joinTextFold bs
      | none => j.render

/-! ## Tool-result map and the tool-call correlator (`parser.go`) -/

/-- The `toolResults` map from invocation id to (result text, error flag);
a Go map write overwrites, modelled by prepending (lookup finds the
newest entry first). -/
def ResultsMap := List (String × String × Bool)

def ResultsMap.empty : ResultsMap := []

def ResultsMap.insert (m : ResultsMap) (k : String) (v : String × Bool) : ResultsMap :=
  (k, v) :: m

def ResultsMap.lookup (m : ResultsMap) (k : String) : Option (String × Bool) :=
  (List.find? (fun p => p.1 == k) m).map (fun p => p.2)

/-- `ExtractToolCalls`: walk the events in order; for every `tool_use`
block of an assistant event, build a `ToolCall`, filling result/error from
the map when the id correlates (otherwise empty result, error false). -/
def extractToolCalls (events : List EventU) (toolResults : ResultsMap) : List ToolCall :=
  events.flatMap (fun ev =>
    match ev with
    | .asst a =>
      a.message.content.filterMap (fun c =>
        if c.type == "tool_use" then
          some { id := c.id, name := c.name, input := c.input,
                 eventUUID := a.base.uuid,
                 result := ((toolResults.lookup c.id).map (fun r => r.1)).getD "",
                 isError := ((toolResults.lookup c.id).map (fun r => r.2)).getD false }
        else none)
    | _ => [])

/-! ## parseLines / ParseBytes (`parser.go`) -/

/-- A raw input line: `none` is a line that is not well-formed JSON,
`some j` a well-formed line with value `j`. -/
def RawLine := Option Json

/-- A parse failure: the 1-based line number and the failure message
(`fmt.Errorf("line %d: ...")`). -/
structure ParseErr where
  line : Nat
  msg : String
  deriving Repr, DecidableEq

/-- Parser state: the transcript being accumulated plus the tool-result
correlation map. -/
structure PState where
  t : Transcript
  results : ResultsMap

/-- Decode one line: first the discriminant (`Event`), then the concrete
shape; unknown types are kept as raw JSON. -/
def decodeLine : RawLine → Except String EventU
  | none => .error "parse event type"
  | some j =>
    match decodeEventBase j with
    | none => .error "parse event type"
    | some base =>
      if base.type == "system" then
        match decodeSystemEvent j with
        | none => .error "parse system event"
        | some ev => .ok (.sys ev)
      else if base.type == "assistant" then
        match decodeAssistantEvent j with
        | none => .error "parse assistant event"
        | some ev => .ok (.asst ev)
      else if base.type == "user" then
        match decodeUserEvent j with
        | none => .error "parse user event"
        | some ev => .ok (.user ev)
      else if base.type == "result" then
        match decodeResultEvent j with
        | none => .error "parse result event"
        | some ev => .ok (.res ev)
      else .ok (.raw j)

/-- Apply one decoded event to the parser state: append it to the event
list, accumulate the session scalars, and record tool results from user
events. -/
def applyEvent (st : PState) (ev : EventU) : PState :=
  match ev with
  | .sys e =>
    let t1 := { st.t with
      sessionID := e.base.sessionID
      model := e.model
      cwd := e.cwd
      tools := e.tools
      events := st.t.events ++ [.sys e] }
    { st with t := t1 }
  | .asst e => { st with t := { st.t with events := st.t.events ++ [.asst e] } }
  | .user e =>
    let newResults := e.message.content.foldl (fun m c =>
      if c.type == "tool_result" && c.toolUseID != "" then
        ResultsMap.insert m c.toolUseID (extractContentString c.content, c.isError)
      else m) st.results
    { t := { st.t with events := st.t.events ++ [.user e] },
      results := newResults }
  | .res e =>
    let t1 := { st.t with
      totalCostUSD := e.totalCostUSD
      numTurns := e.numTurns
      isError := e.isError
      result := e.result
      events := st.t.events ++ [.res e] }
    { st with t := t1 }
  | .raw j => { st with t := { st.t with events := st.t.events ++ [.raw j] } }

/-- The main loop of `parseLines`: `i` is the 0-based index of the current
line in the whole input. -/
def parseLoop (i : Nat) (st : PState) : List RawLine → Except ParseErr PState
  | [] => .ok st
  | l :: rest =>
    match decodeLine l with
    | .error msg => .error ⟨i + 1, msg⟩
    | .ok ev => parseLoop (i + 1) (applyEvent st ev) rest

/-- `parseLines`: fails on zero input lines; otherwise processes each line
and finally derives the tool-call list. -/
def parseLines (lines : List RawLine) : Except ParseErr Transcript :=
  match lines with
  | [] => .error ⟨0, "empty transcript"⟩
  | _ =>
    match parseLoop 0 ⟨{}, ResultsMap.empty⟩ lines with
    | .error e => .error e
    | .ok st => .ok { st.t with toolCalls := extractToolCalls st.t.events st.results }


/-! ## A small regex language for the Go patterns

The Go checkers use `regexp.MatchString` (unanchored search).  The
patterns are embedded as values of `RE`; matching is by Brzozowski
derivatives.  `(?i)` patterns lower-case the subject first and are written
with lower-case literals. -/

inductive RE where
  | emp : RE
  | eps : RE
  | chr (p : Char → Bool) : RE
  | seq (a b : RE) : RE
  | alt (a b : RE) : RE
  | star (a : RE) : RE

def RE.nullable : RE → Bool
  | .emp => false
  | .eps => true
  | .chr _ => false
  | .seq a b => a.nullable && b.nullable
  | .alt a b => a.nullable || b.nullable
  | .star _ => true

def RE.deriv : RE → Char → RE
  | .emp, _ => .emp
  | .eps, _ => .emp
  | .chr p, c => if p c then .eps else .emp
  | .seq a b, c =>
    if a.nullable then .alt (.seq (a.deriv c) b) (b.deriv c) else .seq (a.deriv c) b
  | .alt a b, c => .alt (a.deriv c) (b.deriv c)
  | .star a, c => .seq (a.deriv c) (.star a)

/-- Does the regex accept some prefix of the character list? -/
def RE.prefAccept : RE → List Char → Bool
  | r, [] => r.nullable
  | r, c :: cs => r.nullable || (r.deriv c).prefAccept cs

/-- Does the regex match somewhere in the character list (unanchored)? -/
def RE.findFrom : RE → List Char → Bool
  | r, [] => r.nullable
  | r, cs@(_ :: rest) => r.prefAccept cs || r.findFrom rest

def RE.lit (c : Char) : RE := .chr (fun d => d == c)

def RE.strRE (s : String) : RE := s.toList.foldr (fun c acc => .seq (.lit c) acc) .eps

def RE.plus (r : RE) : RE := .seq r (.star r)

def RE.opt (r : RE) : RE := .alt r .eps

def RE.altL : List RE → RE
  | [] => .emp
  | [r] => r
  | r :: rest => .alt r (RE.altL rest)

def RE.seqL : List RE → RE := fun l => l.foldr .seq .eps

def RE.strAlt (ss : List String) : RE := RE.altL (ss.map RE.strRE)

/-- Go `\s`: space, tab, newline, vertical tab, form feed, carriage return. -/
def wsChar (c : Char) : Bool :=
  c == ' ' || c == '\t' || c == '\n' || c == Char.ofNat 11 || c == Char.ofNat 12 || c == '\r'

/-- Go `\w`: ASCII letters, digits and underscore. -/
def isWordChar (c : Char) : Bool := c.isAlphanum || c == '_'

def RE.wsP : RE := RE.plus (.chr wsChar)

def RE.wsS : RE := .star (.chr wsChar)

/-- Go `.`: any character except newline. -/
def RE.dot : RE := .chr (fun c => c != '\n')

def RE.dotS : RE := .star RE.dot

def RE.digit : RE := .chr Char.isDigit

def RE.wordP : RE := RE.plus (.chr isWordChar)

/-- A compiled Go regex: `anchored` = the pattern starts with `^`,
`ci` = the pattern carries the `(?i)` flag. -/
structure GoRegex where
  anchored : Bool := false
  ci : Bool := false
  re : RE

/-- ASCII lower-casing (all pattern subjects here are ASCII). -/
def lowerChar (c : Char) : Char :=
  if 65 ≤ c.toNat && c.toNat ≤ 90 then Char.ofNat (c.toNat + 32) else c

/-- `regexp.MatchString`: unanchored search (from position 0 only when the
pattern is `^`-anchored); `(?i)` patterns compare case-insensitively,
modelled by lower-casing the subject. -/
def GoRegex.matchString (g : GoRegex) (s : String) : Bool :=
  let cs := if g.ci then s.toList.map lowerChar else s.toList
  if g.anchored then g.re.prefAccept cs else g.re.findFrom cs

/-- `git\s+commit` (`gitCommitCmdPattern` of `commit_after_edit.go`; the
identical `gitCommitPattern` of `single_line_commit.go`). -/
def gitCommitCmdPattern : GoRegex := { re := RE.seqL [RE.strRE "git", RE.wsP, RE.strRE "commit"] }

/-- `Context:\s*\d+%\s*used` (`contextPattern`). -/
def contextPattern : GoRegex :=
  { re := RE.seqL [RE.strRE "Context:", RE.wsS, RE.plus RE.digit, RE.lit '%', RE.wsS, RE.strRE "used"] }


/-! ### `sleepPattern` (`\bsleep\s+(\d+)`) with its capture -/

def parseNatDigits (ds : List Char) : Nat :=
  ds.foldl (fun n c => n * 10 + (c.toNat - 48)) 0

/-- Try `sleep\s+(\d+)` at the head of the list, returning the captured
duration (the greedy digit run, as `strconv.Atoi` reads it). -/
def sleepMatchHere (cs : List Char) : Option Nat :=
  if "sleep".toList.isPrefixOf cs then
    let rest := cs.drop 5
    let wsRun := rest.takeWhile wsChar
    if wsRun.isEmpty then none
    else
      let ds := (rest.drop wsRun.length).takeWhile Char.isDigit
      if ds.isEmpty then none else some (parseNatDigits ds)
  else none

def findSleepAux : Option Char → List Char → Option Nat
  | _, [] => none
  | prev, cs@(c :: rest) =>
    let boundary := match prev with
      | none => true
      | some p => !isWordChar p
    if boundary then
      match sleepMatchHere cs with
      | some n => some n
      | none => findSleepAux (some c) rest
    else findSleepAux (some c) rest

/-- `sleepPattern.FindStringSubmatch` followed by `strconv.Atoi`: the
duration of the leftmost `\bsleep\s+(\d+)` match, if any. -/
def findSleep (s : String) : Option Nat := findSleepAux none s.toList


/-! ## Violations (`internal/checker/types.go`) -/

inductive Severity where
  | info : Severity
  | warning : Severity
  | error : Severity
  deriving Repr, DecidableEq, Inhabited

structure Violation where
  checkerID : String := ""
  rule : String := ""
  severity : Severity := .info
  message : String := ""
  eventUUID : String := ""
  toolCallID : String := ""
  context : List (String × String) := []
  deriving Repr, DecidableEq, Inhabited

/-- `truncate` from `single_line_commit.go` (byte length; all subject
strings here are ASCII). -/
def truncate (s : String) (maxLen : Nat) : String :=
  if s.length ≤ maxLen then s else s.take (maxLen - 3) ++ "..."

/-- Unmarshal a Bash tool input into `BashInput`: `none` when
`json.Unmarshal(tc.Input, &input)` errors (absent input or a non-object),
otherwise the `command` field (Go zero value `""` when missing). -/
def bashCommand : Option Json → Option String
  | none => none
  | some j => decObjWith j (fun l => decField l "command" decStr "") ""

/-! ## CommitAfterEdit (`internal/checker/commit_after_edit.go`)

The aging loop ranges over the `pendingEdits` slice while `removeEdit`
rewrites it in place: Go's `range` captures the slice header (base
pointer and length) once, and `removeEdit` shifts the elements of the
shared backing array left, so later iterations read shifted (possibly
stale) elements.  The model keeps the backing array (`arr`, whose length
never changes inside one aging pass) together with the live length. -/

namespace CommitAfterEdit

/-- `editTools`: tools that modify files. -/
def editTools (name : String) : Bool :=
  name == "Edit" || name == "Write" || name == "NotebookEdit"

structure PendingEdit where
  toolCallID : String := ""
  eventUUID : String := ""
  toolName : String := ""
  index : Nat := 0
  deriving Repr, DecidableEq, Inhabited

/-- The Warning for an edit whose distance from the current position
exceeds the window (`Context` values are built with
`string(rune('0' + n))`). -/
def windowViol (maxCalls i : Nat) (e : PendingEdit) : Violation :=
  { checkerID := "commit-after-edit", rule := "Rule 6", severity := .warning,
    message := "File edit not followed by git commit within reasonable window",
    eventUUID := e.eventUUID, toolCallID := e.toolCallID,
    context := [("tool", e.toolName),
                ("calls_since", String.singleton (Char.ofNat (48 + (i - e.index)))),
                ("max_calls", String.singleton (Char.ofNat (48 + maxCalls)))] }

/-- The terminal Warning for an edit still pending at transcript end. -/
def endViol (e : PendingEdit) : Violation :=
  { checkerID := "commit-after-edit", rule := "Rule 6", severity := .warning,
    message := "File edit not committed by end of session",
    eventUUID := e.eventUUID, toolCallID := e.toolCallID,
    context := [("tool", e.toolName)] }

/-- `removeEdit` on the shared backing array: find the first live entry
with the given tool-call id; if found, shift the following live entries
one slot left (positions at and past `live - 1` keep their old values)
and shrink the live length by one. -/
def removeEditGo (arr : List PendingEdit) (live : Nat) (tid : String) :
    List PendingEdit × Nat :=
  match (arr.take live).findIdx? (fun e => e.toolCallID == tid) with
  | none => (arr, live)
  | some i => (arr.take i ++ (arr.take live).drop (i + 1) ++ arr.drop (live - 1), live - 1)

/-- The aging pass: `for _, edit := range pendingEdits` with the stale
bound captured at loop entry; iteration `k` reads slot `k` of the current
backing array.  The loop runs exactly as many iterations as the captured
length, counted down by `fuel`. -/
def ageGo (maxCalls i : Nat) (k : Nat) (arr : List PendingEdit) (live : Nat)
    (vs : List Violation) : Nat → List PendingEdit × List Violation
  | 0 => (arr.take live, vs)
  | fuel + 1 =>
    let e := arr.getD k default
    if i - e.index > maxCalls then
      let rm := removeEditGo arr live e.toolCallID
      ageGo maxCalls i (k + 1) rm.1 rm.2 (vs ++ [windowViol maxCalls i e]) fuel
    else ageGo maxCalls i (k + 1) arr live vs fuel

/-- One execution of the aging loop over the current pending list. -/
def agePending (maxCalls i : Nat) (p : List PendingEdit) :
    List PendingEdit × List Violation :=
  ageGo maxCalls i 0 p p.length [] p.length

/-- The main scan of `Check`: edits enter the pending list; a decodable
Bash command matching `git\s+commit` clears it; a Bash command whose
input does not decode is skipped entirely; every other call runs the
aging pass.  At transcript end the still-pending edits get terminal
Warnings. -/
def checkLoop (maxCalls : Nat) (i : Nat) (pending : List PendingEdit)
    (vs : List Violation) : List ToolCall → List Violation
  | [] => vs ++ pending.map endViol
  | tc :: rest =>
    if editTools tc.name then
      checkLoop maxCalls (i + 1)
        (pending ++ [{ toolCallID := tc.id, eventUUID := tc.eventUUID,
                       toolName := tc.name, index := i }]) vs rest
    else if tc.name == "Bash" then
      match bashCommand tc.input with
      | none => checkLoop maxCalls (i + 1) pending vs rest
      | some cmd =>
        if gitCommitCmdPattern.matchString cmd then
          checkLoop maxCalls (i + 1) [] vs rest
        else
          let aged := agePending maxCalls i pending
          checkLoop maxCalls (i + 1) aged.1 (vs ++ aged.2) rest
    else
      let aged := agePending maxCalls i pending
      checkLoop maxCalls (i + 1) aged.1 (vs ++ aged.2) rest

/-- `CommitAfterEdit.Check`; `maxToolCallsBeforeCommit = 0` selects the
default window of 15. -/
def check (maxToolCallsBeforeCommit : Nat) (t : Transcript) : List Violation :=
  let maxCalls := if maxToolCallsBeforeCommit == 0 then 15 else maxToolCallsBeforeCommit
  checkLoop maxCalls 0 [] [] t.toolCalls

end CommitAfterEdit

/-! ## ExponentialBackoff (`single_line_commit.go`, second half) -/

namespace ExponentialBackoff

structure SleepInfo where
  duration : Nat := 0
  toolCall : ToolCall := {}
  prevCmd : String := ""
  deriving Repr, Inhabited

/-- The sleep-collection loop: Bash commands containing `\bsleep\s+(\d+)`
are captured with the previous command as signature (the command itself
when there is none); other Bash commands and `BashOutput` calls update the
previous-command tracker.  (The `lastCommandWasPolling` flag of the source
is assigned but never read and is omitted.) -/
def collectSleepsAux (lastCommand : String) (acc : List SleepInfo) :
    List ToolCall → List SleepInfo
  | [] => acc
  | tc :: rest =>
    if tc.name == "Bash" then
      match bashCommand tc.input with
      | none => collectSleepsAux lastCommand acc rest
      | some cmd =>
        match findSleep cmd with
        | some duration =>
          let prevCmd := if lastCommand == "" then cmd else lastCommand
          collectSleepsAux cmd
            (acc ++ [{ duration := duration, toolCall := tc, prevCmd := prevCmd }]) rest
        | none => collectSleepsAux cmd acc rest
    else if tc.name == "BashOutput" then
      collectSleepsAux "BashOutput" acc rest
    else collectSleepsAux lastCommand acc rest

def collectSleeps (calls : List ToolCall) : List SleepInfo :=
  collectSleepsAux "" [] calls

/-- Warning for a constant-sleep monitoring loop, attached to the third
sleep. -/
def constViol (s : SleepInfo) : Violation :=
  { checkerID := "exponential-backoff", rule := "Rule 7", severity := .warning,
    message := "Monitoring loop detected with constant sleep; use exponential backoff (5s → 10s → 20s → 40s → 60s cap)",
    eventUUID := s.toolCall.eventUUID, toolCallID := s.toolCall.id }

/-- Warning for a decreasing sleep pair, attached to the later sleep. -/
def decrViol (s : SleepInfo) : Violation :=
  { checkerID := "exponential-backoff", rule := "Rule 7", severity := .warning,
    message := "Sleep duration decreased; exponential backoff should increase (5s → 10s → 20s → 40s → 60s cap)",
    eventUUID := s.toolCall.eventUUID, toolCallID := s.toolCall.id }

/-- The consecutive-pair walk: pairs at or above the 60s cap are skipped;
the first decreasing pair yields one Warning and stops the walk. -/
def pairScan : List SleepInfo → List Violation
  | a :: b :: rest =>
    if a.duration ≥ 60 && b.duration ≥ 60 then pairScan (b :: rest)
    else if b.duration < a.duration then [decrViol b]
    else pairScan (b :: rest)
  | _ => []

/-- `ExponentialBackoff.Check`. -/
def check (t : Transcript) : List Violation :=
  let sleeps := collectSleeps t.toolCalls
  if sleeps.length ≥ 3 then
    let firstPrevCmd := (sleeps.headD default).prevCmd
    if sleeps.all (fun s => s.prevCmd == firstPrevCmd) then
      if (sleeps.drop 1).all (fun s => s.duration == (sleeps.headD default).duration) then
        [constViol (sleeps.getD 2 default)]
      else pairScan sleeps
    else []
  else []

end ExponentialBackoff

/-! ## ContextReport (the `context-report` checker) -/

namespace ContextReport

/-- The scan of `Check`: remember the text and event uuid of the last
non-empty `text` block seen in an assistant event. -/
def scan (events : List EventU) : Option (String × String) :=
  events.foldl (fun acc ev =>
    match ev with
    | .asst a => a.message.content.foldl (fun acc2 c =>
        if c.type == "text" && c.text != "" then some (a.base.uuid, c.text) else acc2) acc
    | _ => acc) none

def viol (uuid : String) : Violation :=
  { checkerID := "context-report", rule := "Rule 5", severity := .warning,
    message := "Final response missing context usage report (Context: XX% used)",
    eventUUID := uuid }

/-- `ContextReport.Check`. -/
def check (t : Transcript) : List Violation :=
  match scan t.events with
  | none => []
  | some (uuid, txt) =>
    if contextPattern.matchString txt then [] else [viol uuid]

end ContextReport

/-! ## ClarifyingQuestions (the `clarifying-questions` checker) -/

namespace ClarifyingQuestions

/-- ASCII apostrophe, used by several `(?i)` patterns. -/
def aposC : Char := Char.ofNat 39

def implWords : List String := ["start", "begin", "create", "implement", "write"]

/-- `complexTaskPatterns`: requests that indicate a complex/ambiguous
task. -/
def complexTaskPatterns : List GoRegex :=
  [ { ci := true, re := RE.seqL [RE.strRE "add", RE.wsP,
        RE.opt (RE.seqL [RE.strRE "user", RE.wsP]), RE.strRE "authentication"] },
    { ci := true, re := RE.seqL [RE.strRE "implement", RE.wsP, RE.dotS,
        RE.strAlt ["feature", "system", "module"]] },
    { ci := true, re := RE.seqL [RE.strRE "refactor", RE.wsP] },
    { ci := true, re := RE.seqL [RE.strRE "optimize", RE.wsP] },
    { ci := true, re := RE.seqL [RE.strRE "improve", RE.wsP,
        RE.opt (RE.seqL [RE.strRE "the", RE.wsP]), RE.strRE "performance"] },
    { ci := true, re := RE.seqL [RE.strRE "add", RE.wsP,
        RE.opt (RE.seqL [RE.strRE "a", RE.wsP]), RE.strRE "new", RE.wsP,
        RE.strAlt ["feature", "endpoint", "api"]] },
    { ci := true, re := RE.seqL [RE.strRE "build", RE.wsP,
        RE.opt (RE.seqL [RE.strRE "a", RE.wsP]),
        RE.opt (RE.seqL [RE.strRE "new", RE.wsP]), RE.wordP, RE.wsS,
        RE.strAlt ["feature", "system", "module"]] },
    { ci := true, re := RE.seqL [RE.strRE "create", RE.wsP,
        RE.opt (RE.seqL [RE.strRE "a", RE.wsP]),
        RE.opt (RE.seqL [RE.strRE "new", RE.wsP]), RE.wordP, RE.wsS,
        RE.strAlt ["feature", "system", "module", "service"]] },
    { ci := true, re := RE.seqL [RE.strRE "integrate", RE.wsP] },
    { ci := true, re := RE.seqL [RE.strRE "migrate", RE.wsP] },
    { ci := true, re := RE.seqL [RE.strRE "redesign", RE.wsP] },
    { ci := true, re := RE.seqL [RE.strRE "add", RE.wsP, RE.dotS, RE.wsP,
        RE.strRE "to", RE.wsP, RE.strAlt ["this", "the"], RE.wsP,
        RE.strAlt ["app", "application", "project"]] } ]

/-- `questionPatterns`: the agent is asking clarifying questions. -/
def questionPatterns : List GoRegex :=
  [ { ci := true, re := RE.seqL [RE.strRE "before", RE.wsP, RE.lit 'i', RE.wsP,
        RE.strAlt ["start", "begin", "implement", "proceed"]] },
    { ci := true, re := RE.seqL [RE.lit 'i', RE.wsP, RE.strRE "have", RE.wsP,
        RE.altL [RE.seqL [RE.strRE "a", RE.wsP, RE.strRE "few"], RE.strRE "some"],
        RE.wsP, RE.strRE "questions"] },
    { ci := true, re := RE.seqL [RE.strRE "which", RE.wsP,
        RE.strAlt ["approach", "method", "option", "library"]] },
    { ci := true, re := RE.seqL [RE.strRE "should", RE.wsP,
        RE.strAlt ["i", "we", "it"], RE.wsP, RE.dotS, RE.lit '?'] },
    { ci := true, re := RE.seqL [RE.strRE "would", RE.wsP, RE.strRE "you", RE.wsP,
        RE.strAlt ["like", "prefer"]] },
    { ci := true, re := RE.seqL [RE.strRE "do", RE.wsP, RE.strRE "you", RE.wsP,
        RE.strAlt ["want", "prefer", "need"]] },
    { ci := true, re := RE.seqL [RE.strRE "what", RE.wsP,
        RE.strAlt ["should", "would"], RE.wsP, RE.dotS, RE.lit '?'] },
    { ci := true, re := RE.seqL [RE.strRE "could", RE.wsP, RE.strRE "you", RE.wsP,
        RE.strRE "clarify"] },
    { ci := true, re := RE.seqL [RE.strRE "a", RE.wsP, RE.strRE "few", RE.wsP,
        RE.opt (RE.seqL [RE.strRE "clarifying", RE.wsP]), RE.strRE "questions"] },
    { ci := true, re := RE.seqL [RE.strRE "option", RE.wsP,
        RE.strAlt ["a", "1", "one"], RE.dotS, RE.strRE "option", RE.wsP,
        RE.strAlt ["b", "2", "two"]] } ]

/-- `implementationPatterns`: work has started. -/
def implementationPatterns : List GoRegex :=
  [ { ci := true, re := RE.seqL [RE.strRE "let", RE.wsP, RE.strRE "me", RE.wsP,
        RE.strAlt implWords] },
    { ci := true, re := RE.seqL [RE.lit 'i',
        RE.altL [RE.seqL [RE.lit aposC, RE.strRE "ll"],
                 RE.seqL [RE.lit aposC, RE.strRE "m", RE.wsP, RE.strRE "going",
                          RE.wsP, RE.strRE "to"]],
        RE.wsP, RE.strAlt implWords] },
    { ci := true, re := RE.seqL [RE.lit 'i', RE.wsP, RE.strRE "will", RE.wsP,
        RE.opt (RE.seqL [RE.strRE "now", RE.wsP]), RE.strAlt implWords] },
    { ci := true, re := RE.seqL [RE.strRE "creating", RE.wsP,
        RE.strAlt ["the", "a"], RE.wsP] },
    { ci := true, re := RE.seqL [RE.strRE "implementing", RE.wsP] },
    { ci := true, re := RE.seqL [RE.lit 'i', RE.lit aposC, RE.strRE "ve", RE.wsP,
        RE.strAlt ["created", "implemented", "added", "written"]] },
    { anchored := true, ci := true, re := RE.seqL [RE.strRE "starting", RE.wsP,
        RE.strAlt ["the", "to"], RE.wsP] },
    { ci := true, re := RE.seqL [RE.strRE "now", RE.wsP, RE.lit 'i',
        RE.altL [RE.seqL [RE.lit aposC, RE.strRE "ll"],
                 RE.seqL [RE.lit aposC, RE.strRE "m", RE.wsP, RE.strRE "going",
                          RE.wsP, RE.strRE "to"]],
        RE.wsP, RE.strAlt implWords] } ]

/-- `implementationTools`: tool names that indicate implementation. -/
def implementationTools (n : String) : Bool :=
  n == "Write" || n == "Edit" || n == "NotebookEdit"

structure TaskRequest where
  eventIdx : Nat := 0
  uuid : String := ""
  text : String := ""
  deriving Repr, Inhabited

structure AMsg where
  eventIdx : Nat := 0
  uuid : String := ""
  text : String := ""
  usesAskQuestion : Bool := false
  asksQuestions : Bool := false
  startsImplement : Bool := false
  usesImplementTool : Bool := false
  deriving Repr, Inhabited

/-- Pass 1: user messages whose concatenated text matches a complex-task
pattern, with their event index. -/
def collectTasks (events : List EventU) : List TaskRequest :=
  events.enum.filterMap (fun p =>
    match p.2 with
    | .user e =>
      let msgText := e.message.content.foldl
        (fun acc c => if c.type == "text" then acc ++ c.text else acc) ""
      if complexTaskPatterns.any (fun g => g.matchString msgText) then
        some { eventIdx := p.1, uuid := e.base.uuid, text := msgText }
      else none
    | _ => none)

/-- Pass 2: classify one assistant event. -/
def analyzeMsg (i : Nat) (a : AssistantEvent) : AMsg :=
  let text := a.message.content.foldl
    (fun acc c => if c.type == "text" then acc ++ c.text else acc) ""
  { eventIdx := i, uuid := a.base.uuid, text := text,
    usesAskQuestion := a.message.content.any
      (fun c => c.type == "tool_use" && c.name == "AskUserQuestion"),
    asksQuestions := questionPatterns.any (fun g => g.matchString text),
    startsImplement := implementationPatterns.any (fun g => g.matchString text),
    usesImplementTool := a.message.content.any
      (fun c => c.type == "tool_use" && implementationTools c.name) }

def collectMsgs (events : List EventU) : List AMsg :=
  events.enum.filterMap (fun p =>
    match p.2 with
    | .asst a => some (analyzeMsg p.1 a)
    | _ => none)

/-- The per-task scan: walk assistant messages after the task; a message
that asks a question (tool or text) ends the scan without a finding; a
message that implements (text or tool) before any question is the
violating message. -/
def scanForTask (taskIdx : Nat) : List AMsg → Option String
  | [] => none
  | m :: rest =>
    if m.eventIdx ≤ taskIdx then scanForTask taskIdx rest
    else
      let questionAsked := m.usesAskQuestion || m.asksQuestions
      if (m.startsImplement || m.usesImplementTool) && !questionAsked then some m.uuid
      else if questionAsked then none
      else scanForTask taskIdx rest

def viol (task : TaskRequest) (uuid : String) : Violation :=
  { checkerID := "clarifying-questions", rule := "Rule 13", severity := .warning,
    message := "Started implementing complex task without asking clarifying questions",
    eventUUID := uuid,
    context := [("task", truncate task.text 100)] }

/-- `ClarifyingQuestions.Check`. -/
def check (t : Transcript) : List Violation :=
  let tasks := collectTasks t.events
  if tasks.isEmpty then []
  else
    let msgs := collectMsgs t.events
    tasks.flatMap (fun task =>
      match scanForTask task.eventIdx msgs with
      | some uuid => [viol task uuid]
      | none => [])

end ClarifyingQuestions

/-! ## The checker registry (`internal/checker/registry.go`) -/

/-- A registered checker: stable id, description, and the pure check
function. -/
structure Checker where
  id : String
  description : String := ""
  check : Transcript → List Violation

/-- The process-wide registry: a keyed table. Go map iteration order is
unspecified, so every read below sorts; the model keeps entries in
registration order. -/
abbrev Registry := List (String × Checker)

/-- `Register`: the Go `panic` on a duplicate id is modelled as
`Except.error` (an unrecoverable startup fault that happens before any
`Check` runs). -/
def Registry.register (r : Registry) (c : Checker) : Except String Registry :=
  if r.any (fun p => p.1 == c.id) then
    .error ("checker already registered: " ++ c.id)
  else
    .ok (r ++ [(c.id, c)])

/-- Insertion step of the id-sort used by `GetAll`/`IDs`. -/
def insertByLe {α : Type} (key : α → String) (c : α) : List α → List α
  | [] => [c]
  | d :: rest => if key c ≤ key d then c :: d :: rest else d :: insertByLe key c rest

/-- Insertion sort by a string key (the `sort.Slice`/`sort.Strings`
calls of `GetAll` and `IDs`). -/
def sortByKey {α : Type} (key : α → String) : List α → List α
  | [] => []
  | c :: rest => insertByLe key c (sortByKey key rest)

/-- `GetAll`: all registered checkers sorted by id. -/
def Registry.getAll (r : Registry) : List Checker :=
  sortByKey Checker.id (r.map (fun p => p.2))

/-- `IDs`: all registered ids sorted. -/
def Registry.ids (r : Registry) : List String :=
  sortByKey (fun s => s) (r.map (fun p => p.1))

/-! ## Concrete fixtures used by the claim theorems -/

/-- The clarifying-questions fixture: complex task, then an implementing
reply with no question. -/
def cqNoQuestionTr : Transcript :=
  { events := [
      .user { base := { uuid := "e1" },
              message := { content :=
                [{ type := "text", text := "Add user authentication to this app." }] } },
      .asst { base := { uuid := "e2" },
              message := { content :=
                [{ type := "text",
                   text := "Let me start implementing the authentication system." }] } } ] }

/-- The clarifying-questions fixture: the same task, with a question asked
in the same message as the implementation language. -/
def cqQuestionTr : Transcript :=
  { events := [
      .user { base := { uuid := "e1" },
              message := { content :=
                [{ type := "text", text := "Add user authentication to this app." }] } },
      .asst { base := { uuid := "e2" },
              message := { content :=
                [{ type := "text",
                   text := "Should I use JWT or session cookies? Let me start implementing with JWT." }] } } ] }

/-- A Bash tool call whose input does not decode as `BashInput`
(`json.Unmarshal` fails on an absent input), so `CommitAfterEdit.Check`
skips it entirely — including the aging pass. -/
def undecodableBash (n : Nat) : ToolCall :=
  { id := "tc-" ++ toString n, name := "Bash", input := none }

/-- Three edits, then fifteen undecodable Bash calls (no aging pass runs),
then one `Read` call: at the `Read` call all three edits exceed the
15-call window simultaneously. -/
def threeStaleEditsTr : Transcript :=
  { toolCalls :=
      [ { id := "tc-a", name := "Edit", eventUUID := "ea" },
        { id := "tc-b", name := "Write", eventUUID := "eb" },
        { id := "tc-c", name := "Edit", eventUUID := "ec" } ]
      ++ ((List.range 15).map (fun n => undecodableBash (n + 3)))
      ++ [ { id := "tc-r", name := "Read", eventUUID := "er" } ] }

def mkBashCall (i : Nat) (cmd : String) : ToolCall :=
  { id := "t" ++ toString i, name := "Bash",
    input := some (.obj [("command", .str cmd)]), eventUUID := "u" ++ toString i }

/-- `[poll, sleep 5] × 3`: a constant-sleep monitoring loop. -/
def pollSleepTr : Transcript :=
  { toolCalls :=
      [ mkBashCall 1 "kubectl get pods", mkBashCall 2 "sleep 5",
        mkBashCall 3 "kubectl get pods", mkBashCall 4 "sleep 5",
        mkBashCall 5 "kubectl get pods", mkBashCall 6 "sleep 5" ] }

/-- `sleep 5, 10, 20`: increasing backoff in a monitoring loop. -/
def increasingSleepTr : Transcript :=
  { toolCalls :=
      [ mkBashCall 1 "kubectl get pods", mkBashCall 2 "sleep 5",
        mkBashCall 3 "kubectl get pods", mkBashCall 4 "sleep 10",
        mkBashCall 5 "kubectl get pods", mkBashCall 6 "sleep 20" ] }

/-- The position of the first non-capped decreasing consecutive pair in a
duration list: `some i` is the index of the later element of that pair
(a decreasing pair with both durations at least 60 is treated as capped
and skipped); `none` when no such pair exists. -/
def specFirstDecrease : List Nat → Option Nat
  | a :: b :: rest =>
    if b < a ∧ ¬(60 ≤ a ∧ 60 ≤ b) then some 1
    else (specFirstDecrease (b :: rest)).map (fun i => i + 1)
  | _ => none

/-- `sleep 60, 60`: only two captured sleeps, at the cap. -/
def cappedSleepTr : Transcript :=
  { toolCalls := [ mkBashCall 1 "sleep 60", mkBashCall 2 "sleep 60" ] }

/-- The last non-empty text block across assistant events, found by
searching the events (and the blocks within each event) from the end:
the pair (uuid of the containing event, block text). -/
def specLastTextBlock (evs : List EventU) : Option (String × String) :=
  evs.reverse.findSome? (fun ev =>
    match ev with
    | .asst a =>
      (a.message.content.reverse.find?
        (fun c => c.type == "text" && c.text != "")).map (fun c => (a.base.uuid, c.text))
    | _ => none)

/-- The `context-report` checker as a registrable value (its Go `init()`
calls `Register(&ContextReport{})` under this id). -/
def contextReportChecker : Checker :=
  { id := "context-report",
    description := "Ensures context usage is reported (Rule 5)",
    check := ContextReport.check }

/-- A transcript whose final assistant text lacks the context report. -/
def ctxMissingTr : Transcript :=
  { events := [ .asst
      { base := { uuid := "u1" },
        message := { content := [{ type := "text", text := "All done." }] } } ] }

/-- The empty transcript value. -/
def emptyTr : Transcript := {}

/-- The tool-invocation blocks across assistant events, in order of
appearance (the spec-side description of what the correlator outputs). -/
def assistantToolUseBlocks (evs : List EventU) : List ContentBlock :=
  evs.flatMap (fun ev =>
    match ev with
    | .asst a => a.message.content.filter (fun c => c.type == "tool_use")
    | _ => [])

/-- The claim's reading of the array form of a tool-result payload: the
texts of the extracted text blocks, joined with newline separators. -/
def specJoinTexts : List String → String
  | [] => ""
  | [t] => t
  | t :: rest => t ++ "\n" ++ specJoinTexts rest

/-- The extracted text blocks of a decoded block array: the non-empty
texts of blocks typed `text`, newline-joined. -/
def specJoinTextBlocks (bs : List RBlock) : String :=
  specJoinTexts (bs.filterMap (fun b =>
    if b.type == "text" && b.text != "" then some b.text else none))

/-- Does any user event of the transcript carry a tool_result block for
this invocation id (with a non-empty id, as the correlation map
requires)? -/
def hasResultFor (evs : List EventU) (id : String) : Bool :=
  evs.any (fun ev =>
    match ev with
    | .user e => e.message.content.any (fun c =>
        c.type == "tool_result" && c.toolUseID != "" && c.toolUseID == id)
    | _ => false)

/-- Is the JSON value one that the first decoding attempt of
`extractContentString` consumes (a bare string, or `null`, which Go's
unmarshal into a string accepts as a no-op)?  Everything else goes on to
the block-array attempt and, failing that, to the raw-text fallback. -/
def isStrOrNull : Json → Bool
  | .null => true
  | .str _ => true
  | _ => false

/-- Parse-state invariant: every correlated key in the results map has a
matching tool_result block in some already-processed user event. -/
def ResultsInv (st : PState) : Prop :=
  ∀ id, ResultsMap.lookup st.results id ≠ none → hasResultFor st.t.events id = true

def c8Lines : List RawLine :=
  [some (.obj [("type", .str "assistant"), ("uuid", .str "u1"),
    ("message", .obj [("content", .arr
      [ .obj [("type", .str "tool_use"), ("id", .str "t1"), ("name", .str "Read")],
        .obj [("type", .str "text"), ("text", .str "hi")],
        .obj [("type", .str "tool_use"), ("id", .str "t2"), ("name", .str "Grep")] ])])])]

def c8T : Transcript :=
  { events := [ .asst
      { base := { type := "assistant", uuid := "u1" },
        message := { content :=
          [ { type := "tool_use", id := "t1", name := "Read" },
            { type := "text", text := "hi" },
            { type := "tool_use", id := "t2", name := "Grep" } ] } } ],
    toolCalls :=
      [ { id := "t1", name := "Read", eventUUID := "u1" },
        { id := "t2", name := "Grep", eventUUID := "u1" } ] }

def c4Lines : List RawLine :=
  [some (.obj [("type", .str "assistant"), ("uuid", .str "u1"),
    ("message", .obj [("content", .arr
      [ .obj [("type", .str "tool_use"), ("id", .str "t1"), ("name", .str "Read")] ])])])]

def c4T : Transcript :=
  { events := [ .asst
      { base := { type := "assistant", uuid := "u1" },
        message := { content := [ { type := "tool_use", id := "t1", name := "Read" } ] } } ],
    toolCalls := [ { id := "t1", name := "Read", eventUUID := "u1" } ] }

/-- A commit-shaped call: a Bash tool call whose input decodes and whose
command matches `git\s+commit`. -/
def isCommitCall (tc : ToolCall) : Bool :=
  tc.name == "Bash" &&
    (match bashCommand tc.input with
     | some cmd => gitCommitCmdPattern.matchString cmd
     | none => false)

def commitPairTr : Transcript :=
  { toolCalls :=
      [ { id := "e1", name := "Edit", eventUUID := "u1" },
        { id := "b1", name := "Bash",
          input := some (.obj [("command", .str "git commit -m done")]),
          eventUUID := "u2" } ] }

/-! ## Claim theorems -/

/-- **C5.** For the transcript with user task "Add user authentication to
this app." followed by the assistant reply "Let me start implementing the
authentication system." (no question), `ClarifyingQuestions.Check` returns
exactly one violation, a Warning (Rule 13) on the implementing message;
for the same task followed by "Should I use JWT or session cookies? Let me
start implementing with JWT.", it returns no violation, because the
question in the same message precedes the implementation in the scan. -/
theorem clarifyingQuestions_fixture_behaviour :
    ClarifyingQuestions.check cqNoQuestionTr =
      [{ checkerID := "clarifying-questions", rule := "Rule 13",
         severity := .warning,
         message := "Started implementing complex task without asking clarifying questions",
         eventUUID := "e2",
         context := [("task", "Add user authentication to this app.")] }] ∧
    ClarifyingQuestions.check cqQuestionTr = [] := by
  exact ⟨by decide, by decide⟩

/-- **C1** (refuting evaluation). With three edits pending and
simultaneously over-age at one aging pass (arranged by fifteen
undecodable Bash calls that skip the pass), the in-place `removeEdit`
shifts the slice under the active `range` loop: the checker emits the
window Warning for the third edit (`tc-c`) twice, and the second edit
(`tc-b`) is skipped by the pass and only gets the terminal Warning — the
claim "no edit ever receives more than one violation" fails. -/
theorem commitAfterEdit_duplicate_window_warning :
    ((CommitAfterEdit.check 0 threeStaleEditsTr).map (fun v => v.toolCallID) =
      ["tc-a", "tc-c", "tc-c", "tc-b"]) ∧
    (((CommitAfterEdit.check 0 threeStaleEditsTr).filter
        (fun v => v.toolCallID == "tc-c")).length = 2) := by
  exact ⟨by decide, by decide⟩

/-! ### Registry lemmas (C9) -/

theorem mem_insertByLe {α : Type} (key : α → String) (c x : α) (l : List α) :
    x ∈ insertByLe key c l ↔ x = c ∨ x ∈ l := by
  induction l with
  | nil => simp [insertByLe]
  | cons d rest ih =>
    simp only [insertByLe]
    split
    · simp [or_comm, or_left_comm]
    · simp only [List.mem_cons, ih]
      tauto

theorem sorted_insertByLe {α : Type} (key : α → String) (c : α) (l : List α)
    (h : l.Sorted (fun a b => key a ≤ key b)) :
    (insertByLe key c l).Sorted (fun a b => key a ≤ key b) := by
  induction l with
  | nil => simp [insertByLe]
  | cons d rest ih =>
    rw [List.sorted_cons] at h
    simp only [insertByLe]
    split
    · rename_i hcd
      rw [List.sorted_cons]
      refine ⟨?_, ?_⟩
      · intro b hb
        rcases List.mem_cons.mp hb with hb | hb
        · subst hb
          exact hcd
        · exact le_trans hcd (h.1 b hb)
      · rw [List.sorted_cons]
        exact h
    · rename_i hcd
      rw [List.sorted_cons]
      refine ⟨?_, ih h.2⟩
      intro b hb
      rcases (mem_insertByLe key c b _).mp hb with hb | hb
      · subst hb
        exact le_of_not_le hcd
      · exact h.1 b hb

theorem sorted_sortByKey {α : Type} (key : α → String) (l : List α) :
    (sortByKey key l).Sorted (fun a b => key a ≤ key b) := by
  induction l with
  | nil => simp [sortByKey]
  | cons c rest ih => exact sorted_insertByLe key c _ ih

theorem perm_insertByLe {α : Type} (key : α → String) (c : α) (l : List α) :
    (insertByLe key c l).Perm (c :: l) := by
  induction l with
  | nil => simp [insertByLe]
  | cons d rest ih =>
    simp only [insertByLe]
    split
    · exact List.Perm.refl _
    · exact (List.Perm.cons d ih).trans (List.Perm.swap c d rest)

theorem perm_sortByKey {α : Type} (key : α → String) (l : List α) :
    (sortByKey key l).Perm l := by
  induction l with
  | nil => simp [sortByKey]
  | cons c rest ih =>
    exact (perm_insertByLe key c _).trans (List.Perm.cons c ih)

/-- **C9.** Registering a checker whose id is already present fails (the
Go `panic`, an unrecoverable startup fault raised inside `Register`
itself, before any `Check` could run), and succeeds otherwise; `IDs` is
always sorted ascending and is a permutation of the registered ids, and
`GetAll` always returns exactly the registered checkers in id-sorted
order — all regardless of the order in which checkers were registered. -/
theorem registry_register_and_sorted :
    (∀ (r : Registry) (c : Checker),
        (Registry.register r c).isOk = !(r.any (fun p => p.1 == c.id))) ∧
    (∀ r : Registry, (Registry.ids r).Sorted (· ≤ ·)) ∧
    (∀ r : Registry, (Registry.ids r).Perm (r.map (fun p => p.1))) ∧
    (∀ r : Registry, (Registry.getAll r).Sorted (fun a b => a.id ≤ b.id)) ∧
    (∀ r : Registry, (Registry.getAll r).Perm (r.map (fun p => p.2))) := by
  refine ⟨?_, ?_, ?_, ?_, ?_⟩
  · intro r c
    simp only [Registry.register]
    by_cases h : r.any (fun p => p.1 == c.id) = true
    · rw [if_pos h, h]
      rfl
    · rw [if_neg h]
      rw [Bool.not_eq_true] at h
      rw [h]
      rfl
  · intro r
    exact sorted_sortByKey (fun s => s) _
  · intro r
    exact perm_sortByKey (fun s => s) _
  · intro r
    exact sorted_sortByKey Checker.id _
  · intro r
    exact perm_sortByKey Checker.id _

theorem pairScan_eq_spec : ∀ s : List ExponentialBackoff.SleepInfo,
    ExponentialBackoff.pairScan s =
      (match specFirstDecrease (s.map (fun x => x.duration)) with
        | some i => [ExponentialBackoff.decrViol (s.getD i default)]
        | none => [])
  | [] => rfl
  | [_] => rfl
  | a :: b :: rest => by
    have ih := pairScan_eq_spec (b :: rest)
    by_cases hcap : 60 ≤ a.duration ∧ 60 ≤ b.duration
    · have hc : ¬(b.duration < a.duration ∧ ¬(60 ≤ a.duration ∧ 60 ≤ b.duration)) := by
        tauto
      have hcapb : (decide (60 ≤ a.duration) && decide (60 ≤ b.duration)) = true := by
        simp [hcap.1, hcap.2]
      simp only [ExponentialBackoff.pairScan, specFirstDecrease, List.map_cons, hcapb,
        if_neg hc]
      rw [if_pos trivial, ih, List.map_cons]
      cases hsp : specFirstDecrease (b.duration :: List.map (fun x => x.duration) rest) with
      | none => rfl
      | some j => simp [List.getD_cons_succ]
    · have hcapb : (decide (60 ≤ a.duration) && decide (60 ≤ b.duration)) = false := by
        rcases Decidable.not_and_iff_or_not.mp hcap with h | h <;> simp [h]
      by_cases hlt : b.duration < a.duration
      · have hc : b.duration < a.duration ∧ ¬(60 ≤ a.duration ∧ 60 ≤ b.duration) :=
          ⟨hlt, hcap⟩
        simp only [ExponentialBackoff.pairScan, specFirstDecrease, List.map_cons, hcapb,
          if_pos hc]
        rw [if_neg (by simp), if_pos (by simpa using hlt)]
        simp [List.getD_cons_succ]
      · have hc : ¬(b.duration < a.duration ∧ ¬(60 ≤ a.duration ∧ 60 ≤ b.duration)) := by
          tauto
        simp only [ExponentialBackoff.pairScan, specFirstDecrease, List.map_cons, hcapb,
          if_neg hc]
        rw [if_neg (by simp), if_neg (by simpa using hlt), ih, List.map_cons]
        cases hsp : specFirstDecrease (b.duration :: List.map (fun x => x.duration) rest) with
        | none => rfl
        | some j => simp [List.getD_cons_succ]

/-- **C2.** The backoff checker emits nothing when fewer than 3 sleeps are
captured; when at least 3 are captured, all preceding-command signatures
are identical and all durations are equal, it emits exactly one Warning,
attached to the third captured sleep. -/
theorem exponentialBackoff_constant_loop (t : Transcript) :
    ((ExponentialBackoff.collectSleeps t.toolCalls).length < 3 →
      ExponentialBackoff.check t = []) ∧
    (3 ≤ (ExponentialBackoff.collectSleeps t.toolCalls).length →
      (∀ s ∈ ExponentialBackoff.collectSleeps t.toolCalls,
        s.prevCmd =
          ((ExponentialBackoff.collectSleeps t.toolCalls).headD default).prevCmd) →
      (∀ s ∈ ExponentialBackoff.collectSleeps t.toolCalls,
        s.duration =
          ((ExponentialBackoff.collectSleeps t.toolCalls).headD default).duration) →
      ExponentialBackoff.check t =
        [ExponentialBackoff.constViol
          ((ExponentialBackoff.collectSleeps t.toolCalls).getD 2 default)]) := by
  constructor
  · intro h
    simp only [ExponentialBackoff.check]
    rw [if_neg (by omega)]
  · intro h3 hsig hdur
    simp only [ExponentialBackoff.check]
    rw [if_pos h3]
    rw [if_pos ?sig]
    case sig =>
      rw [List.all_eq_true]
      intro x hx
      exact beq_iff_eq.mpr (hsig x hx)
    rw [if_pos ?dur]
    case dur =>
      rw [List.all_eq_true]
      intro x hx
      exact beq_iff_eq.mpr (hdur x (List.drop_subset 1 _ hx))

/-- **C3.** In a qualifying monitoring loop (at least 3 captured sleeps,
identical signatures) whose durations are not all equal, the checker
flags exactly the first non-capped decreasing consecutive pair (one
Warning on the later sleep of the pair) and nothing else; a loop with no
such pair — in particular one whose durations never decrease — yields no
violation, and fewer than 3 captured sleeps (such as `sleep 60,60`)
yield none. -/
theorem exponentialBackoff_decrease_detection (t : Transcript) :
    ((ExponentialBackoff.collectSleeps t.toolCalls).length < 3 →
      ExponentialBackoff.check t = []) ∧
    (3 ≤ (ExponentialBackoff.collectSleeps t.toolCalls).length →
      (∀ s ∈ ExponentialBackoff.collectSleeps t.toolCalls,
        s.prevCmd =
          ((ExponentialBackoff.collectSleeps t.toolCalls).headD default).prevCmd) →
      ¬(∀ s ∈ ExponentialBackoff.collectSleeps t.toolCalls,
        s.duration =
          ((ExponentialBackoff.collectSleeps t.toolCalls).headD default).duration) →
      ExponentialBackoff.check t =
        (match specFirstDecrease
            ((ExponentialBackoff.collectSleeps t.toolCalls).map (fun x => x.duration)) with
          | some i =>
            [ExponentialBackoff.decrViol
              ((ExponentialBackoff.collectSleeps t.toolCalls).getD i default)]
          | none => [])) := by
  constructor
  · intro h
    simp only [ExponentialBackoff.check]
    rw [if_neg (by omega)]
  · intro h3 hsig hne
    simp only [ExponentialBackoff.check]
    rw [if_pos h3]
    rw [if_pos ?sig]
    case sig =>
      rw [List.all_eq_true]
      intro x hx
      exact beq_iff_eq.mpr (hsig x hx)
    rw [if_neg ?dur]
    case dur =>
      rw [List.all_eq_true]
      intro hall
      apply hne
      intro x hx
      cases hm : ExponentialBackoff.collectSleeps t.toolCalls with
      | nil => simp [hm] at hx
      | cons y ys =>
        rw [hm] at hx
        rcases List.mem_cons.mp hx with hx | hx
        · subst hx
          simp
        · have hmem : x ∈ (ExponentialBackoff.collectSleeps t.toolCalls).drop 1 := by
            rw [hm]
            simpa using hx
          have hb := hall x hmem
          rw [hm] at hb
          exact beq_iff_eq.mp hb
    exact pairScan_eq_spec _

/-- Witness for C2: the `[poll, sleep 5] × 3` loop (3 equal sleeps after
identical polls) gets exactly the one Warning on the third sleep, and the
two-sleep `sleep 60,60` transcript gets none. -/
theorem exponentialBackoff_constant_loop_witness :
    ExponentialBackoff.check cappedSleepTr = [] ∧
    ExponentialBackoff.check pollSleepTr =
      [ExponentialBackoff.constViol
        ((ExponentialBackoff.collectSleeps pollSleepTr.toolCalls).getD 2 default)] :=
  ⟨(exponentialBackoff_constant_loop cappedSleepTr).1 (by decide),
   (exponentialBackoff_constant_loop pollSleepTr).2 (by decide) (by decide) (by decide)⟩

/-- Witness for C3: `sleep 5, 10, 20` after identical polls is a
qualifying non-constant loop with no decreasing pair, so no violation;
`sleep 60,60` has fewer than three sleeps, so no violation. -/
theorem exponentialBackoff_decrease_detection_witness :
    ExponentialBackoff.check increasingSleepTr = [] ∧
    ExponentialBackoff.check cappedSleepTr = [] :=
  ⟨((exponentialBackoff_decrease_detection increasingSleepTr).2
      (by decide) (by decide) (by decide)).trans (by decide),
   (exponentialBackoff_decrease_detection cappedSleepTr).1 (by decide)⟩

/-! ### ContextReport lemmas (C10) -/

theorem foldl_if_last {α β : Type} (q : α → Bool) (f : α → β) :
    ∀ (l : List α) (acc : Option β),
      l.foldl (fun a c => if q c then some (f c) else a) acc =
        ((l.reverse.find? q).map f).or acc := by
  intro l
  induction l with
  | nil => intro acc; rfl
  | cons c rest ih =>
    intro acc
    simp only [List.foldl_cons, List.reverse_cons]
    rw [ih, List.find?_append]
    cases hf : rest.reverse.find? q with
    | some d => simp
    | none =>
      cases hq : q c with
      | true => simp [List.find?_cons, hq]
      | false => simp [List.find?_cons, hq]

theorem foldl_or_last {α β : Type} (g : α → Option β) :
    ∀ (l : List α) (acc : Option β),
      l.foldl (fun a x => (g x).or a) acc = (l.reverse.findSome? g).or acc := by
  intro l
  induction l with
  | nil => intro acc; rfl
  | cons c rest ih =>
    intro acc
    simp only [List.foldl_cons, List.reverse_cons]
    rw [ih, List.findSome?_append, Option.or_assoc]
    congr 1
    cases hg : g c with
    | some b => simp [List.findSome?_cons, hg]
    | none => simp [List.findSome?_cons, hg]

/-- The scan of `ContextReport.Check` finds exactly the last non-empty
text block (searching from the end). -/
theorem contextReport_scan_eq_spec (evs : List EventU) :
    ContextReport.scan evs = specLastTextBlock evs := by
  have hstep : ∀ (acc : Option (String × String)) (ev : EventU),
      (match ev with
        | .asst a => a.message.content.foldl (fun acc2 c =>
            if c.type == "text" && c.text != "" then some (a.base.uuid, c.text) else acc2) acc
        | _ => acc) =
      ((match ev with
        | .asst a =>
          (a.message.content.reverse.find?
            (fun c => c.type == "text" && c.text != "")).map (fun c => (a.base.uuid, c.text))
        | _ => none) : Option (String × String)).or acc := by
    intro acc ev
    cases ev with
    | asst a =>
      exact foldl_if_last (fun c => c.type == "text" && c.text != "")
        (fun c => (a.base.uuid, c.text)) a.message.content acc
    | sys e => rfl
    | user e => rfl
    | res e => rfl
    | raw j => rfl
  show evs.foldl _ none = _
  calc evs.foldl (fun acc ev =>
          match ev with
          | .asst a => a.message.content.foldl (fun acc2 c =>
              if c.type == "text" && c.text != "" then some (a.base.uuid, c.text) else acc2) acc
          | _ => acc) none
      = evs.foldl (fun acc ev =>
          ((match ev with
            | .asst a =>
              (a.message.content.reverse.find?
                (fun c => c.type == "text" && c.text != "")).map (fun c => (a.base.uuid, c.text))
            | _ => none) : Option (String × String)).or acc) none := by
        congr 1
        funext acc ev
        exact hstep acc ev
    _ = specLastTextBlock evs := by
        rw [foldl_or_last, Option.or_none]
        rfl

/-- **C10.** The registry's `context-report` checker: when the last
assistant-message non-empty text block does not match
`Context:\s*\d+%\s*used`, Check returns exactly one Warning (Rule 5)
referencing that block's event; when no assistant message has non-empty
text, it returns nothing (and a matching final report also yields
nothing). -/
theorem contextReport_checks_last_text (t : Transcript) :
    contextReportChecker.id = "context-report" ∧
    (specLastTextBlock t.events = none → ContextReport.check t = []) ∧
    (∀ uuid txt, specLastTextBlock t.events = some (uuid, txt) →
      contextPattern.matchString txt = false →
      ContextReport.check t = [ContextReport.viol uuid]) ∧
    (∀ uuid txt, specLastTextBlock t.events = some (uuid, txt) →
      contextPattern.matchString txt = true →
      ContextReport.check t = []) := by
  refine ⟨rfl, ?_, ?_, ?_⟩
  · intro h
    simp only [ContextReport.check, contextReport_scan_eq_spec, h]
  · intro uuid txt h hm
    simp only [ContextReport.check, contextReport_scan_eq_spec, h, hm]
    rfl
  · intro uuid txt h hm
    simp only [ContextReport.check, contextReport_scan_eq_spec, h, hm]
    rfl

/-- Witness for C10: a transcript with no assistant text yields no
violation, and one whose last assistant text is "All done." (no context
report) yields exactly the Rule 5 Warning on that event. -/
theorem contextReport_checks_last_text_witness :
    ContextReport.check emptyTr = [] ∧
    ContextReport.check ctxMissingTr = [ContextReport.viol "u1"] :=
  ⟨(contextReport_checks_last_text emptyTr).2.1 (by decide),
   (contextReport_checks_last_text ctxMissingTr).2.2.1 "u1" "All done."
     (by decide) (by decide)⟩

/-! ### Parser lemmas and claim theorems (C4, C7, C8) -/

theorem extractToolCalls_proj (evs : List EventU) (m : ResultsMap) :
    (extractToolCalls evs m).map (fun tc => (tc.id, tc.name)) =
      (assistantToolUseBlocks evs).map (fun c => (c.id, c.name)) := by
  induction evs with
  | nil => rfl
  | cons ev rest ih =>
    cases ev with
    | asst a =>
      simp only [extractToolCalls, assistantToolUseBlocks, List.flatMap_cons,
        List.map_append] at ih ⊢
      refine congrArg₂ _ ?_ ih
      induction a.message.content with
      | nil => rfl
      | cons c cs ihc =>
        cases hc : (c.type == "tool_use") with
        | true =>
          have hceq : c.type = "tool_use" := by simpa using hc
          simpa [List.filterMap_cons, List.filter_cons, hc, hceq] using ihc
        | false =>
          have hcne : ¬(c.type = "tool_use") := by simpa using hc
          simpa [List.filterMap_cons, List.filter_cons, hc, hcne] using ihc
    | sys e =>
      simpa only [extractToolCalls, assistantToolUseBlocks, List.flatMap_cons,
        List.nil_append] using ih
    | user e =>
      simpa only [extractToolCalls, assistantToolUseBlocks, List.flatMap_cons,
        List.nil_append] using ih
    | res e =>
      simpa only [extractToolCalls, assistantToolUseBlocks, List.flatMap_cons,
        List.nil_append] using ih
    | raw j =>
      simpa only [extractToolCalls, assistantToolUseBlocks, List.flatMap_cons,
        List.nil_append] using ih

theorem parseLines_ok_inv (ls : List RawLine) (t : Transcript)
    (h : parseLines ls = .ok t) :
    ∃ st : PState, parseLoop 0 ⟨{}, ResultsMap.empty⟩ ls = .ok st ∧
      t = { st.t with toolCalls := extractToolCalls st.t.events st.results } := by
  cases ls with
  | nil => simp [parseLines] at h
  | cons a as =>
    simp only [parseLines] at h
    cases hp : parseLoop 0 ⟨{}, ResultsMap.empty⟩ (a :: as) with
    | error e =>
      rw [hp] at h
      cases h
    | ok st =>
      rw [hp] at h
      rw [Except.ok.injEq] at h
      exact ⟨st, rfl, h.symm⟩

/-- **C8.** For every parsed transcript, the tool-call list projects
exactly (same length, same order) to the tool-invocation blocks across
the assistant events, ignoring events of other kinds. -/
theorem toolCalls_are_invocations_in_order (ls : List RawLine) (t : Transcript)
    (h : parseLines ls = .ok t) :
    t.toolCalls.map (fun tc => (tc.id, tc.name)) =
      (assistantToolUseBlocks t.events).map (fun c => (c.id, c.name)) ∧
    t.toolCalls.length = (assistantToolUseBlocks t.events).length := by
  obtain ⟨st, _, ht⟩ := parseLines_ok_inv ls t h
  subst ht
  refine ⟨extractToolCalls_proj _ _, ?_⟩
  have hm := congrArg List.length (extractToolCalls_proj st.t.events st.results)
  simpa [List.length_map] using hm

theorem parseLoop_isOk (ls : List RawLine) : ∀ (i : Nat) (st : PState),
    (parseLoop i st ls).isOk = ls.all (fun l => (decodeLine l).isOk) := by
  induction ls with
  | nil => intro i st; rfl
  | cons l rest ih =>
    intro i st
    simp only [parseLoop, List.all_cons]
    cases hd : decodeLine l with
    | error msg => simp [Except.isOk, Except.toBool]
    | ok ev =>
      rw [ih (i + 1) (applyEvent st ev)]
      simp [Except.isOk, Except.toBool]

theorem parseLoop_first_error (pre : List RawLine) : ∀ (i : Nat) (st : PState)
    (l : RawLine) (post : List RawLine),
    (∀ x ∈ pre, (decodeLine x).isOk = true) → (decodeLine l).isOk = false →
    ∃ msg, parseLoop i st (pre ++ l :: post) = .error ⟨i + pre.length + 1, msg⟩ := by
  induction pre with
  | nil =>
    intro i st l post _ hl
    cases hd : decodeLine l with
    | error msg => exact ⟨msg, by simp [parseLoop, hd]⟩
    | ok ev => rw [hd] at hl; cases hl
  | cons x pre ih =>
    intro i st l post hpre hl
    have hx := hpre x (List.mem_cons_self x pre)
    cases hd : decodeLine x with
    | error msg =>
      rw [hd] at hx
      cases hx
    | ok ev =>
      obtain ⟨msg, hmsg⟩ := ih (i + 1) (applyEvent st ev) l post
        (fun y hy => hpre y (List.mem_cons_of_mem x hy)) hl
      refine ⟨msg, ?_⟩
      have hstep : parseLoop i st ((x :: pre) ++ l :: post) =
          parseLoop (i + 1) (applyEvent st ev) (pre ++ l :: post) := by
        rw [List.cons_append]
        simp [parseLoop, hd]
      rw [hstep, hmsg]
      have harith : i + 1 + pre.length + 1 = i + (x :: pre).length + 1 := by
        rw [List.length_cons]
        omega
      rw [harith]

/-- **C7.** `parseLines` succeeds exactly when there is at least one
input line and every line decodes (is well-formed JSON matching its event
shape); any failure is fatal to the whole parse call — an `Except.error`
carries no `Transcript` — and the error of a bad line carries the 1-based
number of the first offending line. -/
theorem parse_fails_iff_bad_line :
    (∀ ls : List RawLine, (parseLines ls).isOk = true ↔
      (ls ≠ [] ∧ ∀ l ∈ ls, (decodeLine l).isOk = true)) ∧
    (∀ (pre : List RawLine) (l : RawLine) (post : List RawLine),
      (∀ x ∈ pre, (decodeLine x).isOk = true) → (decodeLine l).isOk = false →
      ∃ msg, parseLines (pre ++ l :: post) = .error ⟨pre.length + 1, msg⟩) := by
  constructor
  · intro ls
    cases ls with
    | nil => simp [parseLines, Except.isOk, Except.toBool]
    | cons a as =>
      have hq := parseLoop_isOk (a :: as) 0 ⟨{}, ResultsMap.empty⟩
      simp only [parseLines]
      cases hp : parseLoop 0 ⟨{}, ResultsMap.empty⟩ (a :: as) with
      | error e =>
        rw [hp] at hq
        constructor
        · intro hcontra
          simp [Except.isOk, Except.toBool] at hcontra
        · intro hall
          exfalso
          have h2 : (a :: as).all (fun l => (decodeLine l).isOk) = true :=
            List.all_eq_true.mpr hall.2
          rw [← hq] at h2
          simp [Except.isOk, Except.toBool] at h2
      | ok st =>
        rw [hp] at hq
        constructor
        · intro _
          refine ⟨List.cons_ne_nil a as, ?_⟩
          intro x hx
          have h2 : (a :: as).all (fun l => (decodeLine l).isOk) = true := by
            rw [← hq]
            rfl
          exact List.all_eq_true.mp h2 x hx
        · intro _
          rfl
  · intro pre l post hpre hl
    obtain ⟨msg, hmsg⟩ := parseLoop_first_error pre 0 ⟨{}, ResultsMap.empty⟩ l post hpre hl
    refine ⟨msg, ?_⟩
    have hne : pre ++ l :: post ≠ [] := by
      cases pre <;> simp
    obtain ⟨b, bs, hbs⟩ := List.exists_cons_of_ne_nil hne
    rw [hbs]
    simp only [parseLines]
    rw [← hbs, hmsg]
    simp

theorem joinTextFold_eq_filtered (bs : List RBlock) :
    ∀ acc : String,
      bs.foldl (fun acc b =>
        if b.type == "text" && b.text != "" then
          (if acc != "" then acc ++ "\n" else acc) ++ b.text
        else acc) acc =
      (bs.filterMap (fun b =>
        if b.type == "text" && b.text != "" then some b.text else none)).foldl
        (fun acc t => (if acc != "" then acc ++ "\n" else acc) ++ t) acc := by
  induction bs with
  | nil => intro acc; rfl
  | cons b rest ih =>
    intro acc
    cases hc : (b.type == "text" && b.text != "") with
    | true => simp only [List.foldl_cons, List.filterMap_cons, hc, if_pos rfl]; exact ih _
    | false =>
      simp only [List.foldl_cons, List.filterMap_cons, hc]
      rw [if_neg (by simp)]
      exact ih _

theorem step2_fold_acc (ts : List String) :
    ∀ acc : String, acc ≠ "" →
      ts.foldl (fun acc t => (if acc != "" then acc ++ "\n" else acc) ++ t) acc =
        specJoinTexts (acc :: ts) := by
  induction ts with
  | nil => intro acc _; rfl
  | cons t rest ih =>
    intro acc hacc
    have hb : (acc != "") = true := bne_iff_ne.mpr hacc
    simp only [List.foldl_cons]
    rw [if_pos hb]
    have hacc2 : acc ++ "\n" ++ t ≠ "" := by
      intro h
      have h2 := congrArg String.length h
      rw [String.length_append, String.length_append] at h2
      have h3 : ("\n" : String).length = 1 := rfl
      simp [h3] at h2
    rw [ih (acc ++ "\n" ++ t) hacc2]
    have hsj : ∀ (x y : String) (l : List String),
        specJoinTexts (x :: y :: l) = x ++ "\n" ++ specJoinTexts (y :: l) :=
      fun _ _ _ => rfl
    cases rest with
    | nil => rfl
    | cons r rs =>
      rw [hsj, hsj, hsj]
      simp [String.append_assoc]

theorem joinTextFold_eq_spec (bs : List RBlock) :
    joinTextFold bs = specJoinTextBlocks bs := by
  rw [joinTextFold, specJoinTextBlocks, joinTextFold_eq_filtered]
  cases hts : bs.filterMap (fun b =>
      if b.type == "text" && b.text != "" then some b.text else none) with
  | nil => rfl
  | cons t rest =>
    have ht : t ≠ "" := by
      have hmem : t ∈ bs.filterMap (fun b =>
          if b.type == "text" && b.text != "" then some b.text else none) := by
        rw [hts]
        exact List.mem_cons_self t rest
      obtain ⟨b, _, hb⟩ := List.mem_filterMap.mp hmem
      cases hc : (b.type == "text" && b.text != "") with
      | false => rw [hc] at hb; cases hb
      | true =>
        rw [hc, if_pos rfl] at hb
        have := (Bool.and_eq_true _ _).mp hc
        rw [Option.some.injEq] at hb
        subst hb
        exact bne_iff_ne.mp this.2
    simp only [List.foldl_cons]
    rw [show ((("" : String) != "") = false) from rfl]
    simp only [Bool.false_eq_true, if_false, String.empty_append]
    exact step2_fold_acc rest t ht

/-- The scan of user-event content blocks that stores tool results: if it
yields a key not already present, some block carries that key. -/
theorem lookup_foldInsert (id : String) (cs : List UserContentBlock) :
    ∀ m : ResultsMap,
      ResultsMap.lookup (cs.foldl (fun m c =>
        if c.type == "tool_result" && c.toolUseID != "" then
          ResultsMap.insert m c.toolUseID (extractContentString c.content, c.isError)
        else m) m) id ≠ none →
      ResultsMap.lookup m id ≠ none ∨
        ∃ c ∈ cs, (c.type == "tool_result" && c.toolUseID != "") = true ∧ c.toolUseID = id := by
  induction cs with
  | nil => intro m h; exact Or.inl h
  | cons c rest ih =>
    intro m h
    simp only [List.foldl_cons] at h
    cases hc : (c.type == "tool_result" && c.toolUseID != "") with
    | false =>
      rw [if_neg (by simp [hc])] at h
      rcases ih m h with h2 | ⟨d, hd, hcond⟩
      · exact Or.inl h2
      · exact Or.inr ⟨d, List.mem_cons_of_mem c hd, hcond⟩
    | true =>
      rw [if_pos hc] at h
      rcases ih _ h with h2 | ⟨d, hd, hcond⟩
      · by_cases hk : c.toolUseID = id
        · exact Or.inr ⟨c, List.mem_cons_self c rest, hc, hk⟩
        · left
          simp only [ResultsMap.insert, ResultsMap.lookup, List.find?_cons] at h2 ⊢
          have hbk : (c.toolUseID == id) = false := by simp [hk]
          simp only [hbk] at h2
          exact h2
      · exact Or.inr ⟨d, List.mem_cons_of_mem c hd, hcond⟩

theorem resultsInv_applyEvent (st : PState) (ev : EventU) (h : ResultsInv st) :
    ResultsInv (applyEvent st ev) := by
  have hmono : ∀ (evs : List EventU) (e2 : EventU) (id : String),
      hasResultFor evs id = true → hasResultFor (evs ++ [e2]) id = true := by
    intro evs e2 id hh
    rw [hasResultFor, List.any_append]
    rw [hasResultFor] at hh
    rw [hh]
    rfl
  cases ev with
  | sys e => intro id hid; exact hmono _ _ _ (h id hid)
  | asst e => intro id hid; exact hmono _ _ _ (h id hid)
  | res e => intro id hid; exact hmono _ _ _ (h id hid)
  | raw j => intro id hid; exact hmono _ _ _ (h id hid)
  | user e =>
    intro id hid
    simp only [applyEvent] at hid
    rcases lookup_foldInsert id e.message.content st.results hid with h2 | ⟨c, hc, hcond, hkey⟩
    · exact hmono _ _ _ (h id h2)
    · show hasResultFor (st.t.events ++ [.user e]) id = true
      rw [hasResultFor, List.any_append, Bool.or_eq_true]
      right
      simp only [List.any_cons, List.any_nil, Bool.or_false]
      rw [List.any_eq_true]
      refine ⟨c, hc, ?_⟩
      rw [Bool.and_eq_true]
      exact ⟨hcond, by rw [hkey]; simp⟩

theorem resultsInv_parseLoop (ls : List RawLine) :
    ∀ (i : Nat) (st st' : PState), ResultsInv st →
      parseLoop i st ls = .ok st' → ResultsInv st' := by
  induction ls with
  | nil =>
    intro i st st' hinv h
    simp only [parseLoop] at h
    rw [Except.ok.injEq] at h
    subst h
    exact hinv
  | cons l rest ih =>
    intro i st st' hinv h
    simp only [parseLoop] at h
    cases hd : decodeLine l with
    | error msg => rw [hd] at h; cases h
    | ok ev =>
      rw [hd] at h
      exact ih (i + 1) _ st' (resultsInv_applyEvent st ev hinv) h

theorem extractToolCalls_nores (evs : List EventU) (m : ResultsMap) (tc : ToolCall)
    (h : tc ∈ extractToolCalls evs m) (hl : ResultsMap.lookup m tc.id = none) :
    tc.result = "" ∧ tc.isError = false := by
  rw [extractToolCalls, List.mem_flatMap] at h
  obtain ⟨ev, _, htc⟩ := h
  cases ev with
  | sys e => cases htc
  | user e => cases htc
  | res e => cases htc
  | raw j => cases htc
  | asst a =>
    rw [List.mem_filterMap] at htc
    obtain ⟨c, _, hc⟩ := htc
    cases hcond : (c.type == "tool_use") with
    | false => rw [hcond] at hc; cases hc
    | true =>
      rw [hcond, if_pos rfl, Option.some.injEq] at hc
      subst hc
      simp only at hl
      rw [hl]
      exact ⟨rfl, rfl⟩

/-- **C4.** A tool-result payload given as a bare JSON string is used
verbatim; given as a decodable array of typed blocks, only the (non-empty)
text blocks are extracted and newline-joined; anything else — a value that
is neither a bare string (nor `null`, which Go's string unmarshal accepts
as a no-op) nor an array decodable as typed blocks — falls back to its raw
textual form; and in a parsed transcript a tool invocation with no
matching tool_result anywhere gets the empty result and a false error
flag. -/
theorem toolResult_content_and_correlation :
    (∀ s, extractContentString (some (.str s)) = s) ∧
    (∀ (js : List Json) (bs : List RBlock), decList decodeRBlock {} (.arr js) = some bs →
      extractContentString (some (.arr js)) = specJoinTextBlocks bs) ∧
    (∀ j : Json, isStrOrNull j = false → decList decodeRBlock {} j = none →
      extractContentString (some j) = j.render) ∧
    (∀ (ls : List RawLine) (t : Transcript) (tc : ToolCall), parseLines ls = .ok t →
      tc ∈ t.toolCalls → hasResultFor t.events tc.id = false →
      tc.result = "" ∧ tc.isError = false) := by
  refine ⟨fun s => rfl, ?_, ?_, ?_⟩
  · intro js bs h
    show (match decList decodeRBlock {} (.arr js) with
      | some bs => joinTextFold bs
      | none => (Json.arr js).render) = specJoinTextBlocks bs
    rw [h]
    exact joinTextFold_eq_spec bs
  · intro j hns hdec
    cases j with
    | null => simp [isStrOrNull] at hns
    | str s => simp [isStrOrNull] at hns
    | bool b =>
      show (match decList decodeRBlock {} (Json.bool b) with
        | some bs => joinTextFold bs
        | none => (Json.bool b).render) = (Json.bool b).render
      rw [hdec]
    | num n =>
      show (match decList decodeRBlock {} (Json.num n) with
        | some bs => joinTextFold bs
        | none => (Json.num n).render) = (Json.num n).render
      rw [hdec]
    | arr es =>
      show (match decList decodeRBlock {} (Json.arr es) with
        | some bs => joinTextFold bs
        | none => (Json.arr es).render) = (Json.arr es).render
      rw [hdec]
    | obj fs =>
      show (match decList decodeRBlock {} (Json.obj fs) with
        | some bs => joinTextFold bs
        | none => (Json.obj fs).render) = (Json.obj fs).render
      rw [hdec]
  · intro ls t tc hparse hmem hno
    obtain ⟨st, hloop, ht⟩ := parseLines_ok_inv ls t hparse
    have hinv : ResultsInv st := by
      refine resultsInv_parseLoop ls 0 ⟨{}, ResultsMap.empty⟩ st ?_ hloop
      intro id hid
      exact absurd rfl hid
    subst ht
    have hmem2 : tc ∈ extractToolCalls st.t.events st.results := hmem
    have hev : hasResultFor st.t.events tc.id = false := hno
    have hl : ResultsMap.lookup st.results tc.id = none := by
      by_contra hcon
      rw [hinv tc.id hcon] at hev
      cases hev
    exact extractToolCalls_nores st.t.events st.results tc hmem2 hl


/-- Witness for C8 at a one-assistant-event transcript with two tool_use
blocks interleaved with a text block. -/
theorem toolCalls_are_invocations_in_order_witness :
    c8T.toolCalls.map (fun tc => (tc.id, tc.name)) =
      (assistantToolUseBlocks c8T.events).map (fun c => (c.id, c.name)) ∧
    c8T.toolCalls.length = (assistantToolUseBlocks c8T.events).length :=
  toolCalls_are_invocations_in_order c8Lines c8T rfl

/-- Witness for C7: a decodable one-line transcript parses, and a
well-formed JSON line that is not an object fails with line number 1. -/
theorem parse_fails_iff_bad_line_witness :
    (parseLines [some (.obj [("type", .str "system")])]).isOk = true ∧
    (∃ msg, parseLines [some (.num 5)] = .error ⟨1, msg⟩) :=
  ⟨(parse_fails_iff_bad_line.1 _).mpr ⟨List.cons_ne_nil _ _, by decide⟩,
   parse_fails_iff_bad_line.2 [] (some (.num 5)) [] (by simp) (by decide)⟩

/-- Witness for C4: a bare string payload is verbatim; a block array with
two non-empty text blocks around an image block joins to "a\nb"; an array
whose element is a number fails block decoding and falls back to its raw
textual form "[5]"; the uncorrelated tool call of `c4T` has empty result
and false error flag. -/
theorem toolResult_content_and_correlation_witness :
    extractContentString (some (.str "hello")) = "hello" ∧
    extractContentString (some (.arr
      [ .obj [("type", .str "text"), ("text", .str "a")],
        .obj [("type", .str "image")],
        .obj [("type", .str "text"), ("text", .str "b")] ])) = "a\nb" ∧
    extractContentString (some (.arr [.num 5])) = "[5]" ∧
    (({ id := "t1", name := "Read", eventUUID := "u1" } : ToolCall).result = "" ∧
     ({ id := "t1", name := "Read", eventUUID := "u1" } : ToolCall).isError = false) :=
  ⟨toolResult_content_and_correlation.1 "hello",
   (toolResult_content_and_correlation.2.1
      [ .obj [("type", .str "text"), ("text", .str "a")],
        .obj [("type", .str "image")],
        .obj [("type", .str "text"), ("text", .str "b")] ]
      [ { type := "text", text := "a" }, { type := "image" }, { type := "text", text := "b" } ]
      rfl).trans rfl,
   (toolResult_content_and_correlation.2.2.1 (.arr [.num 5]) rfl rfl).trans rfl,
   toolResult_content_and_correlation.2.2.2 c4Lines c4T
     { id := "t1", name := "Read", eventUUID := "u1" } rfl
     (List.mem_cons_self _ _) rfl⟩

/-! ### CommitAfterEdit window lemmas (C6) -/

theorem editTools_not_commit (tc : ToolCall)
    (h : CommitAfterEdit.editTools tc.name = true) : isCommitCall tc = false := by
  rw [CommitAfterEdit.editTools] at h
  have h2 : (tc.name = "Edit" ∨ tc.name = "Write") ∨ tc.name = "NotebookEdit" := by
    simpa using h
  rw [isCommitCall]
  rcases h2 with (h3 | h3) | h3 <;> (rw [h3]; rfl)

theorem ageGo_noop (maxCalls i : Nat) :
    ∀ (fuel k : Nat) (arr : List CommitAfterEdit.PendingEdit) (vs : List Violation),
      fuel + k = arr.length →
      (∀ e ∈ arr, ¬(i - e.index > maxCalls)) →
      CommitAfterEdit.ageGo maxCalls i k arr arr.length vs fuel = (arr, vs) := by
  intro fuel
  induction fuel with
  | zero =>
    intro k arr vs _ _
    simp [CommitAfterEdit.ageGo, List.take_length]
  | succ fuel ih =>
    intro k arr vs hlen hall
    have hk : k < arr.length := by omega
    have hmem : arr.getD k default ∈ arr := by
      rw [List.getD_eq_getElem arr default hk]
      exact List.getElem_mem hk
    simp only [CommitAfterEdit.ageGo]
    rw [if_neg (hall _ hmem)]
    exact ih (k + 1) arr vs (by omega) hall

theorem agePending_noop (maxCalls i : Nat) (p : List CommitAfterEdit.PendingEdit)
    (hall : ∀ e ∈ p, ¬(i - e.index > maxCalls)) :
    CommitAfterEdit.agePending maxCalls i p = (p, []) := by
  rw [CommitAfterEdit.agePending]
  exact ageGo_noop maxCalls i p.length 0 p [] (by omega) hall

/-- The future-commit hypothesis shifts across the head of the call list. -/
theorem shiftFut (tc : ToolCall) (rest : List ToolCall) (maxCalls : Nat)
    (Hfut : ∀ k, k < (tc :: rest).length →
      CommitAfterEdit.editTools ((tc :: rest).getD k default).name = true →
      ∃ j, j < (tc :: rest).length ∧ k < j ∧ j - k ≤ maxCalls ∧
        isCommitCall ((tc :: rest).getD j default) = true) :
    ∀ k, k < rest.length →
      CommitAfterEdit.editTools ((rest.getD k default).name) = true →
      ∃ j, j < rest.length ∧ k < j ∧ j - k ≤ maxCalls ∧
        isCommitCall (rest.getD j default) = true := by
  intro k hk hed
  obtain ⟨j, hjlen, hjgt, hjwin, hjcommit⟩ := Hfut (k + 1)
    (by simp only [List.length_cons]; omega)
    (by rwa [List.getD_cons_succ])
  have hj1 : 1 ≤ j := by omega
  refine ⟨j - 1, by simp only [List.length_cons] at hjlen; omega, by omega, by omega, ?_⟩
  rw [show j = (j - 1) + 1 from by omega, List.getD_cons_succ] at hjcommit
  exact hjcommit

/-- The pending-edit invariant shifts across a non-commit head. -/
theorem shiftInv (tc : ToolCall) (rest : List ToolCall) (maxCalls i : Nat)
    (htc : isCommitCall tc = false) (pending : List CommitAfterEdit.PendingEdit)
    (Hinv : ∀ e ∈ pending, ∃ j, j < (tc :: rest).length ∧
      isCommitCall ((tc :: rest).getD j default) = true ∧
      e.index ≤ i + j ∧ i + j - e.index ≤ maxCalls) :
    ∀ e ∈ pending, ∃ j, j < rest.length ∧ isCommitCall (rest.getD j default) = true ∧
      e.index ≤ (i + 1) + j ∧ (i + 1) + j - e.index ≤ maxCalls := by
  intro e he
  obtain ⟨j, hjlen, hjcommit, hle, hwin⟩ := Hinv e he
  have hj1 : 1 ≤ j := by
    rcases Nat.eq_zero_or_pos j with h0 | h1
    · subst h0
      rw [List.getD_cons_zero] at hjcommit
      rw [hjcommit] at htc
      cases htc
    · exact h1
  refine ⟨j - 1, by simp only [List.length_cons] at hjlen; omega, ?_, by omega, by omega⟩
  rw [show j = (j - 1) + 1 from by omega, List.getD_cons_succ] at hjcommit
  exact hjcommit

/-- With a non-commit head, no pending edit is over-age at position `i`. -/
theorem pendingFresh (tc : ToolCall) (rest : List ToolCall) (maxCalls i : Nat)
    (pending : List CommitAfterEdit.PendingEdit)
    (Hinv : ∀ e ∈ pending, ∃ j, j < (tc :: rest).length ∧
      isCommitCall ((tc :: rest).getD j default) = true ∧
      e.index ≤ i + j ∧ i + j - e.index ≤ maxCalls) :
    ∀ e ∈ pending, ¬(i - e.index > maxCalls) := by
  intro e he
  obtain ⟨j, _, _, hle, hwin⟩ := Hinv e he
  omega

theorem checkLoop_no_viol (maxCalls : Nat) :
    ∀ (rest : List ToolCall) (i : Nat) (pending : List CommitAfterEdit.PendingEdit)
      (vs : List Violation),
      (∀ k, k < rest.length →
        CommitAfterEdit.editTools ((rest.getD k default).name) = true →
        ∃ j, j < rest.length ∧ k < j ∧ j - k ≤ maxCalls ∧
          isCommitCall (rest.getD j default) = true) →
      (∀ e ∈ pending, ∃ j, j < rest.length ∧ isCommitCall (rest.getD j default) = true ∧
        e.index ≤ i + j ∧ i + j - e.index ≤ maxCalls) →
      CommitAfterEdit.checkLoop maxCalls i pending vs rest = vs := by
  intro rest
  induction rest with
  | nil =>
    intro i pending vs _ Hinv
    cases pending with
    | nil => simp [CommitAfterEdit.checkLoop]
    | cons e p =>
      obtain ⟨j, hj, _⟩ := Hinv e (List.mem_cons_self e p)
      simp at hj
  | cons tc rest ih =>
    intro i pending vs Hfut Hinv
    cases hedit : CommitAfterEdit.editTools tc.name with
    | true =>
      have hstep : CommitAfterEdit.checkLoop maxCalls i pending vs (tc :: rest) =
          CommitAfterEdit.checkLoop maxCalls (i + 1)
            (pending ++ [{ toolCallID := tc.id, eventUUID := tc.eventUUID,
                           toolName := tc.name, index := i }]) vs rest := by
        simp [CommitAfterEdit.checkLoop, hedit]
      rw [hstep]
      apply ih (i + 1) _ vs (shiftFut tc rest maxCalls Hfut)
      intro e he
      rcases List.mem_append.mp he with he | he
      · exact shiftInv tc rest maxCalls i (editTools_not_commit tc hedit) pending Hinv e he
      · have he2 := List.mem_singleton.mp he
        subst he2
        obtain ⟨j, hjlen, hjgt, hjwin, hjcommit⟩ := Hfut 0 (by simp)
          (by rw [List.getD_cons_zero]; exact hedit)
        refine ⟨j - 1, by simp only [List.length_cons] at hjlen; omega,
          ?_, by show i ≤ i + 1 + (j - 1); omega,
          by show i + 1 + (j - 1) - i ≤ maxCalls; omega⟩
        rw [show j = (j - 1) + 1 from by omega, List.getD_cons_succ] at hjcommit
        exact hjcommit
    | false =>
      cases hbash : (tc.name == "Bash") with
      | true =>
        cases hcmd : bashCommand tc.input with
        | none =>
          have htcnc : isCommitCall tc = false := by
            rw [isCommitCall, hcmd]
            simp
          have hstep : CommitAfterEdit.checkLoop maxCalls i pending vs (tc :: rest) =
              CommitAfterEdit.checkLoop maxCalls (i + 1) pending vs rest := by
            simp [CommitAfterEdit.checkLoop, hedit, hbash, hcmd]
          rw [hstep]
          exact ih (i + 1) pending vs (shiftFut tc rest maxCalls Hfut)
            (shiftInv tc rest maxCalls i htcnc pending Hinv)
        | some cmd =>
          cases hmatch : gitCommitCmdPattern.matchString cmd with
          | true =>
            have hstep : CommitAfterEdit.checkLoop maxCalls i pending vs (tc :: rest) =
                CommitAfterEdit.checkLoop maxCalls (i + 1) [] vs rest := by
              simp [CommitAfterEdit.checkLoop, hedit, hbash, hcmd, hmatch]
            rw [hstep]
            apply ih (i + 1) [] vs (shiftFut tc rest maxCalls Hfut)
            intro e he
            cases he
          | false =>
            have htcnc : isCommitCall tc = false := by
              rw [isCommitCall, hcmd]
              simp [hmatch]
            have hage := agePending_noop maxCalls i pending
              (pendingFresh tc rest maxCalls i pending Hinv)
            have hstep : CommitAfterEdit.checkLoop maxCalls i pending vs (tc :: rest) =
                CommitAfterEdit.checkLoop maxCalls (i + 1) pending (vs ++ []) rest := by
              simp [CommitAfterEdit.checkLoop, hedit, hbash, hcmd, hmatch, hage]
            rw [hstep, List.append_nil]
            exact ih (i + 1) pending vs (shiftFut tc rest maxCalls Hfut)
              (shiftInv tc rest maxCalls i htcnc pending Hinv)
      | false =>
        have htcnc : isCommitCall tc = false := by
          rw [isCommitCall, hbash]
          rfl
        have hage := agePending_noop maxCalls i pending
          (pendingFresh tc rest maxCalls i pending Hinv)
        have hstep : CommitAfterEdit.checkLoop maxCalls i pending vs (tc :: rest) =
            CommitAfterEdit.checkLoop maxCalls (i + 1) pending (vs ++ []) rest := by
          simp [CommitAfterEdit.checkLoop, hedit, hbash, hage]
        rw [hstep, List.append_nil]
        exact ih (i + 1) pending vs (shiftFut tc rest maxCalls Hfut)
          (shiftInv tc rest maxCalls i htcnc pending Hinv)

/-- **C6.** A commit-shaped Bash command clears the whole pending-edit
list regardless of which files it covers: whenever every file-mutating
tool call is followed within the default window of 15 calls by some later
Bash call matching `git commit`, the checker reports nothing. -/
theorem commitAfterEdit_commit_clears (t : Transcript)
    (h : ∀ idx, idx < t.toolCalls.length →
      CommitAfterEdit.editTools ((t.toolCalls.getD idx default).name) = true →
      ∃ j, j < t.toolCalls.length ∧ idx < j ∧ j - idx ≤ 15 ∧
        isCommitCall (t.toolCalls.getD j default) = true) :
    CommitAfterEdit.check 0 t = [] := by
  have h0 : CommitAfterEdit.check 0 t =
      CommitAfterEdit.checkLoop 15 0 [] [] t.toolCalls := rfl
  rw [h0]
  apply checkLoop_no_viol 15 t.toolCalls 0 [] [] h
  intro e he
  cases he


/-- Witness for C6: one edit immediately followed by a `git commit` Bash
call yields no violations. -/
theorem commitAfterEdit_commit_clears_witness :
    CommitAfterEdit.check 0 commitPairTr = [] :=
  commitAfterEdit_commit_clears commitPairTr (by decide)
